import Mathlib

/-!
Verification development for the two JSON tile-map utilities of this
repository: `tools/gen_addr_map.py` (hierarchical location-path extraction
and cross-file coordinate merging) and `tools/delete_sub_addr.py`
(recursive removal of object keys containing the `"->"` delimiter).

JSON values are embedded as the inductive type `JVal`.  Numeric literals
are embedded as integers, matching the tile schema the tools consume
(`coord` components are validated with Python's `isinstance(c, int)`,
which also accepts booleans — `bool` is a subclass of `int` in Python;
that behaviour is modelled explicitly).  Python `dict`s are embedded as
insertion-ordered association lists, reflecting the insertion-order
semantics the scripts rely on for output ordering.
-/

/-- JSON values as loaded by Python's `json` module, restricted to the
shapes the tile-map tools manipulate (numbers in the tile schema are
integers). -/
inductive JVal where
  | null
  | bool (b : Bool)
  | int (n : Int)
  | str (s : String)
  | arr (xs : List JVal)
  | obj (kvs : List (String × JVal))
deriving Repr

/-- Python `str.strip()`: remove leading and trailing whitespace. -/
def pyStrip (s : String) : String :=
  ⟨List.reverse (List.dropWhile Char.isWhitespace
    (List.reverse (List.dropWhile Char.isWhitespace s.data)))⟩

/-- Whether the first character list is a leading segment of the second. -/
def prefixMatch : List Char → List Char → Bool
  | [], _ => true
  | _ :: _, [] => false
  | a :: as, b :: bs => a == b && prefixMatch as bs

/-- Whether `pat` occurs contiguously anywhere in the second list. -/
def subOccurs (pat : List Char) : List Char → Bool
  | [] => prefixMatch pat []
  | c :: rest => prefixMatch pat (c :: rest) || subOccurs pat rest

/-- Python's `"->" in s` substring test. -/
def containsArrow (s : String) : Bool := subOccurs "->".data s.data

/-- Number of non-overlapping occurrences of `"->"`, scanning left to
right, as Python's `str.split("->")` does. -/
def arrowCount : List Char → Nat
  | '-' :: '>' :: rest => arrowCount rest + 1
  | _ :: rest => arrowCount rest
  | [] => 0

/-- Python `len(s.split("->"))`: the number of hierarchy levels of a
location path. -/
def levelCount (s : String) : Nat := arrowCount s.data + 1

/-- Python string comparison `a <= b`: lexicographic on code points. -/
def charListLe : List Char → List Char → Bool
  | [], _ => true
  | _ :: _, [] => false
  | a :: as, b :: bs => if a = b then charListLe as bs else decide (a < b)

/-- Python `a <= b` on strings. -/
def strLe (a b : String) : Bool := charListLe a.data b.data

/-- Python `"->".join(parts)`. -/
def joinArrow (parts : List String) : String := String.intercalate "->" parts

/-! ### Key Filter (`delete_sub_addr.remove_keys_with_arrow`) -/

mutual
/-- Embedding of `remove_keys_with_arrow`: recursively drop every object
entry whose key contains `"->"`; map lists element-wise; return scalars
unchanged. -/
def remove_keys_with_arrow : JVal → JVal
  | .arr xs => .arr (removeArrList xs)
  | .obj kvs => .obj (removeArrObj kvs)
  | v => v
termination_by structural v => v
/-- The list branch of `remove_keys_with_arrow`. -/
def removeArrList : List JVal → List JVal
  | [] => []
  | x :: xs => remove_keys_with_arrow x :: removeArrList xs
termination_by structural xs => xs
/-- The dict branch of `remove_keys_with_arrow`: keep an entry iff its key
does not contain `"->"`, recursing into the kept values. -/
def removeArrObj : List (String × JVal) → List (String × JVal)
  | [] => []
  | (k, v) :: rest =>
    if containsArrow k then removeArrObj rest
    else (k, remove_keys_with_arrow v) :: removeArrObj rest
termination_by structural kvs => kvs
end

mutual
/-- No object key anywhere in the value contains `"->"`. -/
def noArrowKeys : JVal → Bool
  | .arr xs => noArrowKeysList xs
  | .obj kvs => noArrowKeysObj kvs
  | _ => true
termination_by structural v => v
/-- List version of `noArrowKeys`. -/
def noArrowKeysList : List JVal → Bool
  | [] => true
  | x :: xs => noArrowKeys x && noArrowKeysList xs
termination_by structural xs => xs
/-- Dict version of `noArrowKeys`. -/
def noArrowKeysObj : List (String × JVal) → Bool
  | [] => true
  | (k, v) :: rest => !containsArrow k && noArrowKeys v && noArrowKeysObj rest
termination_by structural kvs => kvs
end

/-! ### Location-coordinate extractor (`gen_addr_map.py`) -/

/-- The dict type `LocationCoordDict`: location path → list of coordinates,
as an insertion-ordered association list. -/
abbrev LocationCoordDict := List (String × List (List JVal))

/-- Python `d.get(key, default)` on a JSON object's entry list. -/
def objGet : List (String × JVal) → String → JVal → JVal
  | [], _, dflt => dflt
  | (k, v) :: rest, key, dflt => if k = key then v else objGet rest key dflt

/-- Python truthiness of a JSON value (`if not tiles: ...`). -/
def pyTruthy : JVal → Bool
  | .null => false
  | .bool b => b
  | .int n => n != 0
  | .str s => !s.isEmpty
  | .arr xs => !xs.isEmpty
  | .obj kvs => !kvs.isEmpty

/-- Numeric value of a Python `int`, including `bool` (a subclass of `int`
with `True == 1` and `False == 0`); `none` for non-numeric values. -/
def pyNum : JVal → Option Int
  | .int n => some n
  | .bool true => some 1
  | .bool false => some 0
  | _ => none

/-- Python `isinstance(c, int)`, which is true for booleans as well. -/
def isPyInt (v : JVal) : Bool := (pyNum v).isSome

/-- Python `==` on the scalar components of validated coordinates: the
validation guarantees both comparands are `int`s (possibly `bool`s), and
Python compares those by numeric value. -/
def pyEq (a b : JVal) : Bool :=
  match pyNum a, pyNum b with
  | some m, some n => m == n
  | _, _ => false

/-- Python `==` on coordinate tuples (`tuple(coord)` comparison):
element-wise `pyEq`. -/
def coordEq : List JVal → List JVal → Bool
  | [], [] => true
  | a :: as, b :: bs => pyEq a b && coordEq as bs
  | _, _ => false

/-- The `coord` validation of `extract_location_coords_from_json`:
a list of length 2 whose members satisfy `isinstance(c, int)`. -/
def validCoord : JVal → Bool
  | .arr [a, b] => isPyInt a && isPyInt b
  | _ => false

/-- The same validation on an already-unwrapped element list. -/
def validCoordList (l : List JVal) : Bool :=
  l.length == 2 && l.all isPyInt

/-- The `address` validation: a non-empty list whose members are strings. -/
def validAddr : JVal → Bool
  | .arr xs => !xs.isEmpty && xs.all (fun a => match a with | .str _ => true | _ => false)
  | _ => false

/-- The element list of a JSON array (used for the validated `coord`). -/
def coordElems : JVal → List JVal
  | .arr xs => xs
  | _ => []

/-- The string list of a validated `address` array. -/
def addrStrings : JVal → List String
  | .arr xs => xs.map (fun a => match a with | .str s => s | _ => "")
  | _ => []

/-- Dict lookup on a `LocationCoordDict` (Python `p in d` / `d[p]`). -/
def lcdFind : LocationCoordDict → String → Option (List (List JVal))
  | [], _ => none
  | (q, v) :: rest, p => if q = p then some v else lcdFind rest p

/-- Dict assignment `d[p] = v`: replace the value in place if the key
exists, otherwise append the new key at the end (insertion order). -/
def lcdSet : LocationCoordDict → String → List (List JVal) → LocationCoordDict
  | [], p, v => [(p, v)]
  | (q, w) :: rest, p, v => if q = p then (q, v) :: rest else (q, w) :: lcdSet rest p v

/-- Python `if p not in d: d[p] = []`. -/
def ensurePath (d : LocationCoordDict) (p : String) : LocationCoordDict :=
  match lcdFind d p with
  | some _ => d
  | none => d ++ [(p, [])]

/-- The dedup-append of both the extractor and the merger: ensure the path
key exists, then append the coordinate unless a `tuple`-equal one is
already in the list. -/
def addCoord (d : LocationCoordDict) (p : String) (c : List JVal) : LocationCoordDict :=
  let d1 := ensurePath d p
  let cur := (lcdFind d1 p).getD []
  if cur.any (fun x => coordEq x c) then d1 else lcdSet d1 p (cur ++ [c])

/-- The `for level in address` loop: extend the accumulated trimmed
prefix, join it with `"->"`, and dedup-append the coordinate there. -/
def processLevels (coord : List JVal) :
    List String → LocationCoordDict → List String → LocationCoordDict
  | _, lc, [] => lc
  | acc, lc, level :: rest =>
    let acc2 := acc ++ [pyStrip level]
    processLevels coord acc2 (addCoord lc (joinArrow acc2) coord) rest

/-- Messages the extractor reports (`print` calls), abstracted from their
formatted text. -/
inductive Msg where
  | noTiles
  | invalidCoord (idx : Nat) (coord : JVal)
  | fileError

/-- Whether a message is the per-tile invalid-coordinate warning. -/
def Msg.isInvalidCoord : Msg → Bool
  | .invalidCoord _ _ => true
  | _ => false

/-- The `for tile_idx, tile in enumerate(tiles, 1)` loop.  A tile with an
invalid `coord` is skipped with a warning; a tile with an invalid
`address` is skipped silently; a non-dict tile raises (`tile.get`), which
the enclosing `except` turns into an error message, returning the
partially accumulated dict. -/
def extractTiles : Nat → List JVal → LocationCoordDict → LocationCoordDict × List Msg
  | _, [], lc => (lc, [])
  | i, t :: ts, lc =>
    match t with
    | .obj kvs =>
      let coordV := objGet kvs "coord" (.arr [])
      if validCoord coordV then
        let addrV := objGet kvs "address" (.arr [])
        if validAddr addrV then
          extractTiles (i + 1) ts (processLevels (coordElems coordV) [] lc (addrStrings addrV))
        else
          extractTiles (i + 1) ts lc
      else
        let r := extractTiles (i + 1) ts lc
        (r.1, .invalidCoord i coordV :: r.2)
    | _ => (lc, [.fileError])

/-- Embedding of `extract_location_coords_from_json` on a parsed document:
fetch `tiles` (default `[]`), report when it is falsy, iterate otherwise.
A non-dict document raises (`data.get`), reported via the `except` arm. -/
def extract_location_coords_from_json (data : JVal) : LocationCoordDict × List Msg :=
  match data with
  | .obj kvs =>
    match objGet kvs "tiles" (.arr []) with
    | .arr [] => ([], [.noTiles])
    | .arr (t :: ts) => extractTiles 1 (t :: ts) []
    | other => if pyTruthy other then ([], [.fileError]) else ([], [.noTiles])
  | _ => ([], [.fileError])

/-- The per-file merge loop of `merge_all_location_coords`: ensure each
path key, then dedup-append each of the file's coordinates. -/
def mergeFile (all : LocationCoordDict) (file : LocationCoordDict) : LocationCoordDict :=
  file.foldl (fun acc pc => pc.2.foldl (fun a c => addCoord a pc.1 c) (ensurePath acc pc.1)) all

/-- Folding the per-file merge over a sequence of per-file dicts. -/
def mergeFiles (files : List LocationCoordDict) : LocationCoordDict :=
  files.foldl mergeFile []

/-- Embedding of `merge_all_location_coords` on the sequence of parsed
JSON documents the directory walk yields: extract each file's dict, merge
them all, and return the processed-file count. -/
def merge_all_location_coords (docs : List JVal) : LocationCoordDict × Nat :=
  (mergeFiles (docs.map (fun d => (extract_location_coords_from_json d).1)), docs.length)

/-- The sort key comparison `(len(p.split("->")), p)` used by both
`print_location_coords` and `save_location_coords_to_json`. -/
def pathKeyLe (a b : String) : Bool :=
  decide (levelCount a < levelCount b) || (levelCount a == levelCount b && strLe a b)

/-- Embedding of the ordering step of `save_location_coords_to_json`:
`dict(sorted(d.items(), key=lambda x: (len(x[0].split("->")), x[0])))`.
Python's `sorted` is a stable merge sort. -/
def save_location_coords_to_json (d : LocationCoordDict) : LocationCoordDict :=
  d.mergeSort (fun x y => pathKeyLe x.1 y.1)

/-- Embedding of the ordering step of `print_location_coords`:
`sorted(d.keys(), key=lambda x: (len(x.split("->")), x))`. -/
def print_location_coords (d : LocationCoordDict) : List String :=
  (d.map Prod.fst).mergeSort pathKeyLe

/-! ### Basic lemmas about the dict operations -/

theorem lcdFind_lcdSet_self (d : LocationCoordDict) (p : String) (v : List (List JVal)) :
    lcdFind (lcdSet d p v) p = some v := by
  induction d with
  | nil => simp [lcdSet, lcdFind]
  | cons hd tl ih =>
    obtain ⟨q, w⟩ := hd
    by_cases h : q = p
    · simp [lcdSet, lcdFind, h]
    · simp [lcdSet, lcdFind, h, ih]

theorem lcdFind_lcdSet_ne (d : LocationCoordDict) (p q : String) (v : List (List JVal))
    (h : q ≠ p) : lcdFind (lcdSet d p v) q = lcdFind d q := by
  have hps : ¬ p = q := fun hh => h hh.symm
  induction d with
  | nil => simp [lcdSet, lcdFind, hps]
  | cons hd tl ih =>
    obtain ⟨r, w⟩ := hd
    by_cases hr : r = p
    · subst hr
      simp [lcdSet, lcdFind, hps]
    · simp only [lcdSet, if_neg hr]
      by_cases hq : r = q
      · simp [lcdFind, hq]
      · simp [lcdFind, hq, ih]

theorem lcdFind_append_of_none (d e : LocationCoordDict) (p : String)
    (h : lcdFind d p = none) : lcdFind (d ++ e) p = lcdFind e p := by
  induction d with
  | nil => simp
  | cons hd tl ih =>
    obtain ⟨q, w⟩ := hd
    by_cases hq : q = p
    · simp [lcdFind, hq] at h
    · simp only [lcdFind, if_neg hq] at h
      simpa [lcdFind, hq] using ih h

theorem lcdSet_append_of_none (d : LocationCoordDict) (p : String)
    (w v : List (List JVal)) (h : lcdFind d p = none) :
    lcdSet (d ++ [(p, w)]) p v = d ++ [(p, v)] := by
  induction d with
  | nil => simp [lcdSet]
  | cons hd tl ih =>
    obtain ⟨q, u⟩ := hd
    by_cases hq : q = p
    · simp [lcdFind, hq] at h
    · simp only [lcdFind, if_neg hq] at h
      simp [lcdSet, hq, ih h]

theorem mem_lcdSet (d : LocationCoordDict) (p q : String)
    (v l : List (List JVal)) (h : (q, l) ∈ lcdSet d p v) :
    (q, l) ∈ d ∨ (q = p ∧ l = v) := by
  induction d with
  | nil =>
    simp [lcdSet] at h
    exact Or.inr ⟨h.1, h.2⟩
  | cons hd tl ih =>
    obtain ⟨r, w⟩ := hd
    by_cases hr : r = p
    · subst hr
      simp only [lcdSet, if_pos rfl] at h
      rcases List.mem_cons.mp h with h1 | h1
      · exact Or.inr ⟨(Prod.mk.injEq _ _ _ _ ▸ h1).1, (Prod.mk.injEq _ _ _ _ ▸ h1).2⟩
      · exact Or.inl (List.mem_cons_of_mem _ h1)
    · simp only [lcdSet, if_neg hr] at h
      rcases List.mem_cons.mp h with h1 | h1
      · exact Or.inl (h1 ▸ List.mem_cons_self _ _)
      · rcases ih h1 with h2 | h2
        · exact Or.inl (List.mem_cons_of_mem _ h2)
        · exact Or.inr h2

theorem lcdFind_eq_some_mem (d : LocationCoordDict) (p : String)
    (l : List (List JVal)) (h : lcdFind d p = some l) : (p, l) ∈ d := by
  induction d with
  | nil => simp [lcdFind] at h
  | cons hd tl ih =>
    obtain ⟨q, w⟩ := hd
    by_cases hq : q = p
    · subst hq
      simp [lcdFind] at h
      exact h ▸ List.mem_cons_self _ _
    · simp only [lcdFind, if_neg hq] at h
      exact List.mem_cons_of_mem _ (ih h)

theorem ensurePath_of_found (d : LocationCoordDict) (p : String)
    (cur : List (List JVal)) (h : lcdFind d p = some cur) : ensurePath d p = d := by
  simp [ensurePath, h]

theorem ensurePath_of_absent (d : LocationCoordDict) (p : String)
    (h : lcdFind d p = none) : ensurePath d p = d ++ [(p, [])] := by
  simp [ensurePath, h]

theorem addCoord_of_dup (d : LocationCoordDict) (p : String) (c : List JVal)
    (cur : List (List JVal)) (h : lcdFind d p = some cur)
    (hdup : cur.any (fun x => coordEq x c) = true) : addCoord d p c = d := by
  simp [addCoord, ensurePath_of_found d p cur h, h, hdup]

theorem addCoord_of_new (d : LocationCoordDict) (p : String) (c : List JVal)
    (cur : List (List JVal)) (h : lcdFind d p = some cur)
    (hdup : cur.any (fun x => coordEq x c) = false) :
    addCoord d p c = lcdSet d p (cur ++ [c]) := by
  simp [addCoord, ensurePath_of_found d p cur h, h, hdup]

theorem addCoord_of_absent (d : LocationCoordDict) (p : String) (c : List JVal)
    (h : lcdFind d p = none) : addCoord d p c = d ++ [(p, [c])] := by
  have h1 : ensurePath d p = d ++ [(p, [])] := ensurePath_of_absent d p h
  have h2 : lcdFind (d ++ [(p, [])]) p = some [] := by
    rw [lcdFind_append_of_none d _ p h]
    simp [lcdFind]
  simp only [addCoord, h1, h2]
  simpa using lcdSet_append_of_none d p [] [c] h

theorem lcdFind_append_of_some (d e : LocationCoordDict) (p : String)
    (v : List (List JVal)) (h : lcdFind d p = some v) : lcdFind (d ++ e) p = some v := by
  induction d with
  | nil => simp [lcdFind] at h
  | cons hd tl ih =>
    obtain ⟨q, w⟩ := hd
    by_cases hq : q = p
    · simp_all [lcdFind]
    · simp only [lcdFind, if_neg hq] at h
      simpa [lcdFind, hq] using ih h

theorem lcdFind_ensurePath (d : LocationCoordDict) (p q : String) :
    lcdFind (ensurePath d p) q =
      if q = p then some ((lcdFind d p).getD []) else lcdFind d q := by
  cases hf : lcdFind d p with
  | some cur =>
    rw [ensurePath_of_found d p cur hf]
    by_cases hq : q = p
    · simp [hq, hf]
    · simp [hq]
  | none =>
    rw [ensurePath_of_absent d p hf]
    by_cases hq : q = p
    · subst hq
      simp [lcdFind_append_of_none d _ q hf, lcdFind, hf]
    · cases hgq : lcdFind d q with
      | some v => simp [hq, lcdFind_append_of_some d _ q v hgq, hgq]
      | none =>
        rw [lcdFind_append_of_none d _ q hgq]
        have hpq : ¬ p = q := fun hh => hq hh.symm
        simp [lcdFind, hq, hgq, hpq]

theorem lcdFind_addCoord_self (d : LocationCoordDict) (p : String) (c : List JVal) :
    lcdFind (addCoord d p c) p =
      some (if ((lcdFind d p).getD []).any (fun x => coordEq x c) then
        (lcdFind d p).getD [] else (lcdFind d p).getD [] ++ [c]) := by
  cases hf : lcdFind d p with
  | some cur =>
    cases hdup : cur.any (fun x => coordEq x c) with
    | true => simp [addCoord_of_dup d p c cur hf hdup, hf, hdup]
    | false => simp [addCoord_of_new d p c cur hf hdup, hf, hdup, lcdFind_lcdSet_self]
  | none =>
    rw [addCoord_of_absent d p c hf]
    simp [lcdFind_append_of_none d _ p hf, lcdFind, hf]

theorem lcdFind_addCoord_ne (d : LocationCoordDict) (p : String) (c : List JVal)
    (q : String) (h : q ≠ p) : lcdFind (addCoord d p c) q = lcdFind d q := by
  cases hf : lcdFind d p with
  | some cur =>
    cases hdup : cur.any (fun x => coordEq x c) with
    | true => rw [addCoord_of_dup d p c cur hf hdup]
    | false => rw [addCoord_of_new d p c cur hf hdup, lcdFind_lcdSet_ne _ _ _ _ h]
  | none =>
    rw [addCoord_of_absent d p c hf]
    cases hgq : lcdFind d q with
    | some v => exact lcdFind_append_of_some d _ q v hgq
    | none =>
      rw [lcdFind_append_of_none d _ q hgq]
      have hpq : ¬ p = q := fun hh => h hh.symm
      simp [lcdFind, hpq]

/-! ### Python equality as an equivalence on numeric values -/

theorem pyEq_iff (a b : JVal) :
    pyEq a b = true ↔ ∃ m, pyNum a = some m ∧ pyNum b = some m := by
  cases ha : pyNum a with
  | none => simp [pyEq, ha]
  | some m =>
    cases hb : pyNum b with
    | none => simp [pyEq, ha, hb]
    | some n =>
      constructor
      · intro h
        have h2 : (m == n) = true := by simpa [pyEq, ha, hb] using h
        exact ⟨m, rfl, by rw [beq_iff_eq.mp h2]⟩
      · rintro ⟨k, hk1, hk2⟩
        have e1 : m = k := Option.some.inj hk1
        have e2 : n = k := Option.some.inj hk2
        simp [pyEq, ha, hb, e1, e2]

theorem pyEq_refl (a : JVal) (h : isPyInt a = true) : pyEq a a = true := by
  rcases Option.isSome_iff_exists.mp h with ⟨m, hm⟩
  exact (pyEq_iff a a).mpr ⟨m, hm, hm⟩

theorem pyEq_symm (a b : JVal) (h : pyEq a b = true) : pyEq b a = true := by
  rcases (pyEq_iff a b).mp h with ⟨m, hm1, hm2⟩
  exact (pyEq_iff b a).mpr ⟨m, hm2, hm1⟩

theorem pyEq_trans (a b c : JVal) (h1 : pyEq a b = true) (h2 : pyEq b c = true) :
    pyEq a c = true := by
  rcases (pyEq_iff a b).mp h1 with ⟨m, hm1, hm2⟩
  rcases (pyEq_iff b c).mp h2 with ⟨n, hn1, hn2⟩
  have e : m = n := Option.some.inj (hm2.symm.trans hn1)
  refine (pyEq_iff a c).mpr ⟨n, ?_, hn2⟩
  rw [hm1, e]

theorem coordEq_refl (c : List JVal) (h : c.all isPyInt = true) : coordEq c c = true := by
  induction c with
  | nil => rfl
  | cons x xs ih =>
    simp only [List.all_cons, Bool.and_eq_true] at h
    simp [coordEq, pyEq_refl x h.1, ih h.2]

theorem coordEq_symm (a b : List JVal) (h : coordEq a b = true) : coordEq b a = true := by
  induction a generalizing b with
  | nil => cases b with
    | nil => rfl
    | cons y ys => simp [coordEq] at h
  | cons x xs ih =>
    cases b with
    | nil => simp [coordEq] at h
    | cons y ys =>
      simp only [coordEq, Bool.and_eq_true] at h ⊢
      exact ⟨pyEq_symm x y h.1, ih ys h.2⟩

theorem coordEq_trans (a b c : List JVal) (h1 : coordEq a b = true)
    (h2 : coordEq b c = true) : coordEq a c = true := by
  induction a generalizing b c with
  | nil =>
    cases b with
    | nil => cases c with
      | nil => rfl
      | cons z zs => simp [coordEq] at h2
    | cons y ys => simp [coordEq] at h1
  | cons x xs ih =>
    cases b with
    | nil => simp [coordEq] at h1
    | cons y ys =>
      cases c with
      | nil => simp [coordEq] at h2
      | cons z zs =>
        simp only [coordEq, Bool.and_eq_true] at h1 h2 ⊢
        exact ⟨pyEq_trans x y z h1.1 h2.1, ih ys zs h1.2 h2.2⟩

/-! ### Content predicates on the accumulated dict -/

/-- Path `p` maps to a list containing a coordinate `tuple`-equal to `c`. -/
def hasCoordAt (d : LocationCoordDict) (p : String) (c : List JVal) : Prop :=
  ∃ l, lcdFind d p = some l ∧ ∃ x ∈ l, coordEq x c = true

/-- Path `p` is present in the dict. -/
def hasKey (d : LocationCoordDict) (p : String) : Prop := (lcdFind d p).isSome

theorem hasCoordAt_addCoord_mono (d : LocationCoordDict) (p : String) (c : List JVal)
    (q : String) (c2 : List JVal) (h : hasCoordAt d q c2) :
    hasCoordAt (addCoord d p c) q c2 := by
  obtain ⟨l, hl, x, hx, hxc⟩ := h
  by_cases hq : q = p
  · subst hq
    refine ⟨_, lcdFind_addCoord_self d q c, ?_⟩
    rw [hl]
    by_cases hdup : l.any (fun y => coordEq y c) = true
    · simp only [Option.getD_some, hdup, if_true]
      exact ⟨x, hx, hxc⟩
    · simp only [Option.getD_some, Bool.not_eq_true] at hdup ⊢
      simp only [hdup, if_false]
      exact ⟨x, List.mem_append_left _ hx, hxc⟩
  · exact ⟨l, (lcdFind_addCoord_ne d p c q hq) ▸ hl, x, hx, hxc⟩

theorem hasCoordAt_ensurePath_mono (d : LocationCoordDict) (p q : String)
    (c : List JVal) (h : hasCoordAt d q c) : hasCoordAt (ensurePath d p) q c := by
  obtain ⟨l, hl, x, hx, hxc⟩ := h
  rw [hasCoordAt, lcdFind_ensurePath]
  by_cases hq : q = p
  · subst hq
    rw [if_pos rfl, hl]
    exact ⟨l, rfl, x, hx, hxc⟩
  · rw [if_neg hq]
    exact ⟨l, hl, x, hx, hxc⟩

theorem hasCoordAt_addCoord_self (d : LocationCoordDict) (p : String) (c : List JVal)
    (h : c.all isPyInt = true) : hasCoordAt (addCoord d p c) p c := by
  refine ⟨_, lcdFind_addCoord_self d p c, ?_⟩
  by_cases hdup : ((lcdFind d p).getD []).any (fun x => coordEq x c) = true
  · simp only [hdup, if_true]
    rcases List.any_eq_true.mp hdup with ⟨x, hx, hxc⟩
    exact ⟨x, hx, hxc⟩
  · simp only [Bool.not_eq_true] at hdup
    simp only [hdup, if_false]
    exact ⟨c, List.mem_append_right _ (List.mem_singleton.mpr rfl), coordEq_refl c h⟩

theorem hasKey_ensurePath (d : LocationCoordDict) (p q : String) :
    hasKey (ensurePath d p) q ↔ q = p ∨ hasKey d q := by
  rw [hasKey, lcdFind_ensurePath]
  by_cases hq : q = p
  · simp [hq]
  · simp [hq, hasKey]

theorem hasKey_addCoord (d : LocationCoordDict) (p : String) (c : List JVal)
    (q : String) : hasKey (addCoord d p c) q ↔ q = p ∨ hasKey d q := by
  by_cases hq : q = p
  · subst hq
    simp [hasKey, lcdFind_addCoord_self d q c]
  · rw [hasKey, lcdFind_addCoord_ne d p c q hq]
    simp [hq, hasKey]

/-! ### Invariant predicates and their preservation -/

/-- Every coordinate stored under any path of the dict satisfies `P`. -/
def allCoordsP (P : String → List JVal → Prop) (d : LocationCoordDict) : Prop :=
  ∀ p l, (p, l) ∈ d → ∀ c ∈ l, P p c

/-- Every path's coordinate list is pairwise non-equal under Python `==`. -/
def distinctCoords (d : LocationCoordDict) : Prop :=
  ∀ p l, (p, l) ∈ d → l.Pairwise (fun a b => coordEq a b = false)

/-- Every path present in the dict has a non-empty coordinate list. -/
def noEmptyLists (d : LocationCoordDict) : Prop :=
  ∀ p l, (p, l) ∈ d → l ≠ []

theorem allCoordsP_ensurePath (P : String → List JVal → Prop) (d : LocationCoordDict)
    (h : allCoordsP P d) (p : String) : allCoordsP P (ensurePath d p) := by
  intro q l hm c hc
  cases hf : lcdFind d p with
  | some cur =>
    rw [ensurePath_of_found d p cur hf] at hm
    exact h q l hm c hc
  | none =>
    rw [ensurePath_of_absent d p hf] at hm
    rcases List.mem_append.mp hm with h1 | h1
    · exact h q l h1 c hc
    · simp only [List.mem_singleton, Prod.mk.injEq] at h1
      rw [h1.2] at hc
      simp at hc

theorem allCoordsP_addCoord (P : String → List JVal → Prop) (d : LocationCoordDict)
    (h : allCoordsP P d) (p : String) (c : List JVal) (hc : P p c) :
    allCoordsP P (addCoord d p c) := by
  intro q l hm x hx
  cases hf : lcdFind d p with
  | some cur =>
    cases hdup : cur.any (fun y => coordEq y c) with
    | true =>
      rw [addCoord_of_dup d p c cur hf hdup] at hm
      exact h q l hm x hx
    | false =>
      rw [addCoord_of_new d p c cur hf hdup] at hm
      rcases mem_lcdSet _ _ _ _ _ hm with h1 | ⟨hqp, hlv⟩
      · exact h q l h1 x hx
      · rw [hlv] at hx
        rcases List.mem_append.mp hx with h2 | h2
        · exact hqp ▸ h p cur (lcdFind_eq_some_mem d p cur hf) x h2
        · rw [List.mem_singleton.mp h2]
          exact hqp ▸ hc
  | none =>
    rw [addCoord_of_absent d p c hf] at hm
    rcases List.mem_append.mp hm with h1 | h1
    · exact h q l h1 x hx
    · simp only [List.mem_singleton, Prod.mk.injEq] at h1
      rw [h1.2] at hx
      rw [List.mem_singleton.mp hx]
      exact h1.1 ▸ hc

theorem distinctCoords_ensurePath (d : LocationCoordDict) (h : distinctCoords d)
    (p : String) : distinctCoords (ensurePath d p) := by
  intro q l hm
  cases hf : lcdFind d p with
  | some cur =>
    rw [ensurePath_of_found d p cur hf] at hm
    exact h q l hm
  | none =>
    rw [ensurePath_of_absent d p hf] at hm
    rcases List.mem_append.mp hm with h1 | h1
    · exact h q l h1
    · simp only [List.mem_singleton, Prod.mk.injEq] at h1
      rw [h1.2]
      exact List.Pairwise.nil

theorem distinctCoords_addCoord (d : LocationCoordDict) (h : distinctCoords d)
    (p : String) (c : List JVal) : distinctCoords (addCoord d p c) := by
  intro q l hm
  cases hf : lcdFind d p with
  | some cur =>
    cases hdup : cur.any (fun y => coordEq y c) with
    | true =>
      rw [addCoord_of_dup d p c cur hf hdup] at hm
      exact h q l hm
    | false =>
      rw [addCoord_of_new d p c cur hf hdup] at hm
      rcases mem_lcdSet _ _ _ _ _ hm with h1 | ⟨_, hlv⟩
      · exact h q l h1
      · rw [hlv]
        rw [List.pairwise_append]
        refine ⟨h p cur (lcdFind_eq_some_mem d p cur hf), List.pairwise_singleton _ _, ?_⟩
        intro a ha b hb
        rw [List.mem_singleton.mp hb]
        have hall := List.any_eq_false.mp hdup
        simpa using hall a ha
  | none =>
    rw [addCoord_of_absent d p c hf] at hm
    rcases List.mem_append.mp hm with h1 | h1
    · exact h q l h1
    · simp only [List.mem_singleton, Prod.mk.injEq] at h1
      rw [h1.2]
      exact List.pairwise_singleton _ _

theorem noEmptyLists_addCoord (d : LocationCoordDict) (h : noEmptyLists d)
    (p : String) (c : List JVal) : noEmptyLists (addCoord d p c) := by
  intro q l hm
  cases hf : lcdFind d p with
  | some cur =>
    cases hdup : cur.any (fun y => coordEq y c) with
    | true =>
      rw [addCoord_of_dup d p c cur hf hdup] at hm
      exact h q l hm
    | false =>
      rw [addCoord_of_new d p c cur hf hdup] at hm
      rcases mem_lcdSet _ _ _ _ _ hm with h1 | ⟨_, hlv⟩
      · exact h q l h1
      · rw [hlv]
        simp
  | none =>
    rw [addCoord_of_absent d p c hf] at hm
    rcases List.mem_append.mp hm with h1 | h1
    · exact h q l h1
    · simp only [List.mem_singleton, Prod.mk.injEq] at h1
      rw [h1.2]
      simp

theorem addCoord_ensurePath (d : LocationCoordDict) (p : String) (c : List JVal) :
    addCoord (ensurePath d p) p c = addCoord d p c := by
  cases hf : lcdFind d p with
  | some cur => rw [ensurePath_of_found d p cur hf]
  | none =>
    rw [ensurePath_of_absent d p hf]
    have hfind : lcdFind (d ++ [(p, [])]) p = some [] := by
      rw [lcdFind_append_of_none d _ p hf]
      simp [lcdFind]
    rw [addCoord_of_new _ p c [] hfind rfl, addCoord_of_absent d p c hf]
    simpa using lcdSet_append_of_none d p [] [c] hf

/-! ### The per-tile path loop -/

theorem hasCoordAt_processLevels_mono (coord : List JVal) (rest : List String) :
    ∀ (acc : List String) (lc : LocationCoordDict) (q : String) (c : List JVal),
    hasCoordAt lc q c → hasCoordAt (processLevels coord acc lc rest) q c := by
  induction rest with
  | nil =>
    intro acc lc q c h
    simpa [processLevels] using h
  | cons l ls ih =>
    intro acc lc q c h
    simp only [processLevels]
    exact ih _ _ q c (hasCoordAt_addCoord_mono _ _ _ _ _ h)

theorem processLevels_attr (coord : List JVal) (hvc : coord.all isPyInt = true)
    (rest : List String) :
    ∀ (acc : List String) (lc : LocationCoordDict) (k : Nat), k < rest.length →
    hasCoordAt (processLevels coord acc lc rest)
      (joinArrow (acc ++ (rest.take (k + 1)).map pyStrip)) coord := by
  induction rest with
  | nil =>
    intro acc lc k hk
    simp at hk
  | cons l ls ih =>
    intro acc lc k hk
    simp only [processLevels]
    cases k with
    | zero =>
      simp only [List.take_succ_cons, List.take_zero, List.map_cons, List.map_nil]
      exact hasCoordAt_processLevels_mono coord ls _ _ _ _
        (hasCoordAt_addCoord_self lc _ coord hvc)
    | succ k =>
      have hk2 : k < ls.length := by simpa using hk
      have hh := ih (acc ++ [pyStrip l])
        (addCoord lc (joinArrow (acc ++ [pyStrip l])) coord) k hk2
      simpa [List.take_succ_cons, List.append_assoc] using hh

theorem processLevels_untouched (coord : List JVal) (rest : List String) :
    ∀ (acc : List String) (lc : LocationCoordDict) (q : String),
    (∀ k, k < rest.length → q ≠ joinArrow (acc ++ (rest.take (k + 1)).map pyStrip)) →
    lcdFind (processLevels coord acc lc rest) q = lcdFind lc q := by
  induction rest with
  | nil =>
    intro acc lc q _
    simp [processLevels]
  | cons l ls ih =>
    intro acc lc q h
    simp only [processLevels]
    have h0 : q ≠ joinArrow (acc ++ [pyStrip l]) := by
      have hh := h 0 (by simp)
      simpa using hh
    have hrest : ∀ k, k < ls.length →
        q ≠ joinArrow ((acc ++ [pyStrip l]) ++ (ls.take (k + 1)).map pyStrip) := by
      intro k hk
      have hh := h (k + 1) (by simpa using hk)
      simpa [List.take_succ_cons, List.append_assoc] using hh
    rw [ih (acc ++ [pyStrip l]) (addCoord lc (joinArrow (acc ++ [pyStrip l])) coord) q hrest]
    exact lcdFind_addCoord_ne _ _ _ _ h0

/-! ### Tiles, documents and provenance predicates -/

/-- Whether a tile is a JSON object (a Python dict). -/
def tileIsObj : JVal → Bool
  | .obj _ => true
  | _ => false

/-- A tile's `coord` field, with the loop's default `[]`. -/
def tileCoordVal : JVal → JVal
  | .obj kvs => objGet kvs "coord" (.arr [])
  | _ => .arr []

/-- A tile's `address` field, with the loop's default `[]`. -/
def tileAddrVal : JVal → JVal
  | .obj kvs => objGet kvs "address" (.arr [])
  | _ => .arr []

/-- The list of tiles of a parsed document (empty when absent or not a
list). -/
def docTiles : JVal → List JVal
  | .obj kvs =>
    match objGet kvs "tiles" (.arr []) with
    | .arr ts => ts
    | _ => []
  | _ => []

/-- `p` is the `"->"`-join of the stripped elements of some non-empty
leading segment of `addr`. -/
def isPrefixPathOf (addr : List String) (p : String) : Prop :=
  ∃ k, k < addr.length ∧ p = joinArrow ((addr.take (k + 1)).map pyStrip)

/-- A coordinate `c` was observed at path `p` on some fully valid tile of
the document: the tile is a dict, its `coord` and `address` validate, `c`
is exactly its coordinate list, and `p` is one of its address-prefix
paths. -/
def observedInDoc (doc : JVal) (p : String) (c : List JVal) : Prop :=
  ∃ t ∈ docTiles doc, tileIsObj t = true ∧
    validCoord (tileCoordVal t) = true ∧ validAddr (tileAddrVal t) = true ∧
    c = coordElems (tileCoordVal t) ∧ isPrefixPathOf (addrStrings (tileAddrVal t)) p

/-- A coordinate `c` was observed at path `p` in some document of the
collection. -/
def observedCoord (docs : List JVal) (p : String) (c : List JVal) : Prop :=
  ∃ doc ∈ docs, observedInDoc doc p c

/-- Every coordinate stored anywhere in the dict is a validated pair. -/
def wellFormedLCD (d : LocationCoordDict) : Prop :=
  allCoordsP (fun _ c => validCoordList c = true) d

theorem validCoordList_of_validCoord (v : JVal) (h : validCoord v = true) :
    validCoordList (coordElems v) = true := by
  cases v with
  | arr xs =>
    match xs with
    | [] => simp [validCoord] at h
    | [a] => simp [validCoord] at h
    | [a, b] =>
      simp only [validCoord, Bool.and_eq_true] at h
      simp [validCoordList, coordElems, h.1, h.2]
    | a :: b :: c :: rest => simp [validCoord] at h
  | null => simp [validCoord] at h
  | bool b => simp [validCoord] at h
  | int n => simp [validCoord] at h
  | str s => simp [validCoord] at h
  | obj kvs => simp [validCoord] at h

theorem allIsPyInt_of_validCoordList (l : List JVal) (h : validCoordList l = true) :
    l.all isPyInt = true := by
  simp only [validCoordList, Bool.and_eq_true] at h
  exact h.2

/-! ### Invariants through the per-tile loop and the tile iteration -/

theorem allCoordsP_processLevels (P : String → List JVal → Prop) (coord : List JVal)
    (rest : List String) :
    ∀ (acc : List String) (lc : LocationCoordDict), allCoordsP P lc →
    (∀ k, k < rest.length → P (joinArrow (acc ++ (rest.take (k + 1)).map pyStrip)) coord) →
    allCoordsP P (processLevels coord acc lc rest) := by
  induction rest with
  | nil =>
    intro acc lc h _
    simpa [processLevels] using h
  | cons l ls ih =>
    intro acc lc h hP
    simp only [processLevels]
    refine ih (acc ++ [pyStrip l]) _ ?_ ?_
    · refine allCoordsP_addCoord P lc h _ coord ?_
      have hh := hP 0 (by simp)
      simpa using hh
    · intro k hk
      have hh := hP (k + 1) (by simpa using hk)
      simpa [List.take_succ_cons, List.append_assoc] using hh

theorem distinctCoords_processLevels (coord : List JVal) (rest : List String) :
    ∀ (acc : List String) (lc : LocationCoordDict), distinctCoords lc →
    distinctCoords (processLevels coord acc lc rest) := by
  induction rest with
  | nil =>
    intro acc lc h
    simpa [processLevels] using h
  | cons l ls ih =>
    intro acc lc h
    simp only [processLevels]
    exact ih _ _ (distinctCoords_addCoord lc h _ coord)

theorem noEmptyLists_processLevels (coord : List JVal) (rest : List String) :
    ∀ (acc : List String) (lc : LocationCoordDict), noEmptyLists lc →
    noEmptyLists (processLevels coord acc lc rest) := by
  induction rest with
  | nil =>
    intro acc lc h
    simpa [processLevels] using h
  | cons l ls ih =>
    intro acc lc h
    simp only [processLevels]
    exact ih _ _ (noEmptyLists_addCoord lc h _ coord)

theorem extractTiles_allCoordsP (P : String → List JVal → Prop) (ts : List JVal) :
    ∀ (i : Nat) (lc : LocationCoordDict), allCoordsP P lc →
    (∀ t ∈ ts, tileIsObj t = true → validCoord (tileCoordVal t) = true →
      validAddr (tileAddrVal t) = true →
      ∀ q, isPrefixPathOf (addrStrings (tileAddrVal t)) q →
        P q (coordElems (tileCoordVal t))) →
    allCoordsP P (extractTiles i ts lc).1 := by
  induction ts with
  | nil =>
    intro i lc h _
    simpa [extractTiles] using h
  | cons t ts ih =>
    intro i lc h hP
    cases t with
    | obj kvs =>
      simp only [extractTiles]
      by_cases hvc : validCoord (objGet kvs "coord" (.arr [])) = true
      · rw [if_pos hvc]
        by_cases hva : validAddr (objGet kvs "address" (.arr [])) = true
        · rw [if_pos hva]
          refine ih (i + 1) _ ?_ (fun u hu => hP u (List.mem_cons_of_mem _ hu))
          refine allCoordsP_processLevels P _ _ [] lc h ?_
          intro k hk
          have hobj : tileIsObj (JVal.obj kvs) = true := rfl
          have hcv : tileCoordVal (JVal.obj kvs) = objGet kvs "coord" (.arr []) := rfl
          have hav : tileAddrVal (JVal.obj kvs) = objGet kvs "address" (.arr []) := rfl
          have hh := hP (JVal.obj kvs) (List.mem_cons_self _ _) hobj
            (hcv ▸ hvc) (hav ▸ hva)
            (joinArrow ((( addrStrings (objGet kvs "address" (.arr []))).take (k + 1)).map pyStrip))
            ⟨k, by rw [hav]; exact hk, by rw [hav]⟩
          rw [hcv] at hh
          simpa using hh
        · rw [if_neg hva]
          exact ih (i + 1) lc h (fun u hu => hP u (List.mem_cons_of_mem _ hu))
      · rw [if_neg hvc]
        exact ih (i + 1) lc h (fun u hu => hP u (List.mem_cons_of_mem _ hu))
    | null => simpa [extractTiles] using h
    | bool b => simpa [extractTiles] using h
    | int n => simpa [extractTiles] using h
    | str s => simpa [extractTiles] using h
    | arr xs => simpa [extractTiles] using h

theorem extractTiles_distinct (ts : List JVal) :
    ∀ (i : Nat) (lc : LocationCoordDict), distinctCoords lc →
    distinctCoords (extractTiles i ts lc).1 := by
  induction ts with
  | nil =>
    intro i lc h
    simpa [extractTiles] using h
  | cons t ts ih =>
    intro i lc h
    cases t with
    | obj kvs =>
      simp only [extractTiles]
      by_cases hvc : validCoord (objGet kvs "coord" (.arr [])) = true
      · rw [if_pos hvc]
        by_cases hva : validAddr (objGet kvs "address" (.arr [])) = true
        · rw [if_pos hva]
          exact ih (i + 1) _ (distinctCoords_processLevels _ _ [] lc h)
        · rw [if_neg hva]
          exact ih (i + 1) lc h
      · rw [if_neg hvc]
        exact ih (i + 1) lc h
    | null => simpa [extractTiles] using h
    | bool b => simpa [extractTiles] using h
    | int n => simpa [extractTiles] using h
    | str s => simpa [extractTiles] using h
    | arr xs => simpa [extractTiles] using h

theorem extractTiles_noEmpty (ts : List JVal) :
    ∀ (i : Nat) (lc : LocationCoordDict), noEmptyLists lc →
    noEmptyLists (extractTiles i ts lc).1 := by
  induction ts with
  | nil =>
    intro i lc h
    simpa [extractTiles] using h
  | cons t ts ih =>
    intro i lc h
    cases t with
    | obj kvs =>
      simp only [extractTiles]
      by_cases hvc : validCoord (objGet kvs "coord" (.arr [])) = true
      · rw [if_pos hvc]
        by_cases hva : validAddr (objGet kvs "address" (.arr [])) = true
        · rw [if_pos hva]
          exact ih (i + 1) _ (noEmptyLists_processLevels _ _ [] lc h)
        · rw [if_neg hva]
          exact ih (i + 1) lc h
      · rw [if_neg hvc]
        exact ih (i + 1) lc h
    | null => simpa [extractTiles] using h
    | bool b => simpa [extractTiles] using h
    | int n => simpa [extractTiles] using h
    | str s => simpa [extractTiles] using h
    | arr xs => simpa [extractTiles] using h

theorem allCoordsP_nil (P : String → List JVal → Prop) :
    allCoordsP P ([] : LocationCoordDict) := by
  intro p l hm
  simp at hm

theorem distinctCoords_nil : distinctCoords ([] : LocationCoordDict) := by
  intro p l hm
  simp at hm

theorem noEmptyLists_nil : noEmptyLists ([] : LocationCoordDict) := by
  intro p l hm
  simp at hm

theorem extract_fst_eq (doc : JVal) :
    (extract_location_coords_from_json doc).1 = (extractTiles 1 (docTiles doc) []).1 := by
  cases doc with
  | obj kvs =>
    simp only [extract_location_coords_from_json, docTiles]
    cases hT : objGet kvs "tiles" (.arr []) with
    | arr ts => cases ts with
      | nil => simp [extractTiles]
      | cons t tl => simp
    | null => simp [pyTruthy, extractTiles]
    | bool b => cases b <;> simp [pyTruthy, extractTiles]
    | int n =>
      by_cases hn : (n != 0) = true
      · simp [pyTruthy, hn, extractTiles]
      · simp [pyTruthy, hn, extractTiles]
    | str s =>
      by_cases hs : s.isEmpty = true
      · simp [pyTruthy, hs, extractTiles]
      · simp [pyTruthy, hs, extractTiles]
    | obj kvs2 =>
      by_cases hk : kvs2.isEmpty = true
      · simp [pyTruthy, hk, extractTiles]
      · simp [pyTruthy, hk, extractTiles]
  | null => simp [extract_location_coords_from_json, docTiles, extractTiles]
  | bool b => simp [extract_location_coords_from_json, docTiles, extractTiles]
  | int n => simp [extract_location_coords_from_json, docTiles, extractTiles]
  | str s => simp [extract_location_coords_from_json, docTiles, extractTiles]
  | arr xs => simp [extract_location_coords_from_json, docTiles, extractTiles]

theorem extract_allCoordsP (P : String → List JVal → Prop) (doc : JVal)
    (hP : ∀ t ∈ docTiles doc, tileIsObj t = true →
      validCoord (tileCoordVal t) = true → validAddr (tileAddrVal t) = true →
      ∀ q, isPrefixPathOf (addrStrings (tileAddrVal t)) q →
        P q (coordElems (tileCoordVal t))) :
    allCoordsP P (extract_location_coords_from_json doc).1 := by
  rw [extract_fst_eq]
  exact extractTiles_allCoordsP P (docTiles doc) 1 [] (allCoordsP_nil P) hP

theorem extract_wellFormed (doc : JVal) :
    wellFormedLCD (extract_location_coords_from_json doc).1 := by
  refine extract_allCoordsP _ doc ?_
  intro t _ _ hvc _ q _
  exact validCoordList_of_validCoord _ hvc

theorem extract_observed (doc : JVal) :
    allCoordsP (fun p c => observedInDoc doc p c)
      (extract_location_coords_from_json doc).1 := by
  refine extract_allCoordsP _ doc ?_
  intro t ht hobj hvc hva q hq
  exact ⟨t, ht, hobj, hvc, hva, rfl, hq⟩

theorem extract_distinct (doc : JVal) :
    distinctCoords (extract_location_coords_from_json doc).1 := by
  rw [extract_fst_eq]
  exact extractTiles_distinct (docTiles doc) 1 [] distinctCoords_nil

theorem extract_noEmpty (doc : JVal) :
    noEmptyLists (extract_location_coords_from_json doc).1 := by
  rw [extract_fst_eq]
  exact extractTiles_noEmpty (docTiles doc) 1 [] noEmptyLists_nil

/-! ### The merge loops -/

/-- A path key occurs among a per-file dict's entries. -/
def fileHasKey (f : LocationCoordDict) (q : String) : Prop := ∃ l, (q, l) ∈ f

/-- A per-file dict stores, at path `p`, a coordinate `tuple`-equal to
`c`. -/
def fileHasCoord (f : LocationCoordDict) (p : String) (c : List JVal) : Prop :=
  ∃ l, (p, l) ∈ f ∧ ∃ x ∈ l, coordEq x c = true

theorem foldl_addCoord_allCoordsP (P : String → List JVal → Prop) (p : String)
    (cs : List (List JVal)) :
    ∀ acc, allCoordsP P acc → (∀ c ∈ cs, P p c) →
    allCoordsP P (cs.foldl (fun a c => addCoord a p c) acc) := by
  induction cs with
  | nil =>
    intro acc h _
    simpa using h
  | cons c cr ih =>
    intro acc h hcs
    simp only [List.foldl_cons]
    exact ih _ (allCoordsP_addCoord P acc h p c (hcs c (List.mem_cons_self _ _)))
      (fun x hx => hcs x (List.mem_cons_of_mem _ hx))

theorem foldl_addCoord_distinct (p : String) (cs : List (List JVal)) :
    ∀ acc, distinctCoords acc →
    distinctCoords (cs.foldl (fun a c => addCoord a p c) acc) := by
  induction cs with
  | nil =>
    intro acc h
    simpa using h
  | cons c cr ih =>
    intro acc h
    simp only [List.foldl_cons]
    exact ih _ (distinctCoords_addCoord acc h p c)

theorem foldl_addCoord_noEmpty (p : String) (cs : List (List JVal)) :
    ∀ acc, noEmptyLists acc →
    noEmptyLists (cs.foldl (fun a c => addCoord a p c) acc) := by
  induction cs with
  | nil =>
    intro acc h
    simpa using h
  | cons c cr ih =>
    intro acc h
    simp only [List.foldl_cons]
    exact ih _ (noEmptyLists_addCoord acc h p c)

theorem mergeFile_allCoordsP (P : String → List JVal → Prop) (f : LocationCoordDict) :
    ∀ all, allCoordsP P all → allCoordsP P f → allCoordsP P (mergeFile all f) := by
  induction f with
  | nil =>
    intro all h _
    simpa [mergeFile] using h
  | cons pc rest ih =>
    intro all h hf
    obtain ⟨p, cs⟩ := pc
    simp only [mergeFile, List.foldl_cons]
    have h1 : allCoordsP P (cs.foldl (fun a c => addCoord a p c) (ensurePath all p)) :=
      foldl_addCoord_allCoordsP P p cs _ (allCoordsP_ensurePath P all h p)
        (fun c hc => hf p cs (List.mem_cons_self _ _) c hc)
    have h2 : allCoordsP P rest := by
      intro q l hm c hc
      exact hf q l (List.mem_cons_of_mem _ hm) c hc
    exact ih _ h1 h2

theorem mergeFile_distinct (f : LocationCoordDict) :
    ∀ all, distinctCoords all → distinctCoords (mergeFile all f) := by
  induction f with
  | nil =>
    intro all h
    simpa [mergeFile] using h
  | cons pc rest ih =>
    intro all h
    obtain ⟨p, cs⟩ := pc
    simp only [mergeFile, List.foldl_cons]
    exact ih _ (foldl_addCoord_distinct p cs _ (distinctCoords_ensurePath all h p))

theorem mergeFile_noEmpty (f : LocationCoordDict) :
    ∀ all, noEmptyLists all → noEmptyLists f → noEmptyLists (mergeFile all f) := by
  induction f with
  | nil =>
    intro all h _
    simpa [mergeFile] using h
  | cons pc rest ih =>
    intro all h hf
    obtain ⟨p, cs⟩ := pc
    have hcs : cs ≠ [] := hf p cs (List.mem_cons_self _ _)
    simp only [mergeFile, List.foldl_cons]
    have h2 : noEmptyLists rest := by
      intro q l hm
      exact hf q l (List.mem_cons_of_mem _ hm)
    refine ih _ ?_ h2
    cases cs with
    | nil => exact absurd rfl hcs
    | cons c0 cr =>
      simp only [List.foldl_cons, addCoord_ensurePath]
      exact foldl_addCoord_noEmpty p cr _ (noEmptyLists_addCoord all h p c0)

theorem mergeFiles_allCoordsP (P : String → List JVal → Prop)
    (files : List LocationCoordDict) :
    ∀ acc, allCoordsP P acc → (∀ f ∈ files, allCoordsP P f) →
    allCoordsP P (files.foldl mergeFile acc) := by
  induction files with
  | nil =>
    intro acc h _
    simpa using h
  | cons f rest ih =>
    intro acc h hfs
    simp only [List.foldl_cons]
    exact ih _ (mergeFile_allCoordsP P f acc h (hfs f (List.mem_cons_self _ _)))
      (fun g hg => hfs g (List.mem_cons_of_mem _ hg))

theorem mergeFiles_distinct (files : List LocationCoordDict) :
    ∀ acc, distinctCoords acc → distinctCoords (files.foldl mergeFile acc) := by
  induction files with
  | nil =>
    intro acc h
    simpa using h
  | cons f rest ih =>
    intro acc h
    simp only [List.foldl_cons]
    exact ih _ (mergeFile_distinct f acc h)

theorem mergeFiles_noEmpty (files : List LocationCoordDict) :
    ∀ acc, noEmptyLists acc → (∀ f ∈ files, noEmptyLists f) →
    noEmptyLists (files.foldl mergeFile acc) := by
  induction files with
  | nil =>
    intro acc h _
    simpa using h
  | cons f rest ih =>
    intro acc h hfs
    simp only [List.foldl_cons]
    exact ih _ (mergeFile_noEmpty f acc h (hfs f (List.mem_cons_self _ _)))
      (fun g hg => hfs g (List.mem_cons_of_mem _ hg))

theorem hasKey_foldl_addCoord (p : String) (cs : List (List JVal)) :
    ∀ s q, hasKey (cs.foldl (fun a x => addCoord a p x) s) q ↔
      hasKey s q ∨ (q = p ∧ cs ≠ []) := by
  induction cs with
  | nil =>
    intro s q
    simp
  | cons c cr ih =>
    intro s q
    simp only [List.foldl_cons]
    rw [ih, hasKey_addCoord]
    constructor
    · rintro ((h | h) | ⟨hq, _⟩)
      · exact Or.inr ⟨h, by simp⟩
      · exact Or.inl h
      · exact Or.inr ⟨hq, by simp⟩
    · rintro (h | ⟨hq, _⟩)
      · exact Or.inl (Or.inr h)
      · exact Or.inl (Or.inl hq)

theorem hasKey_entryStep (p : String) (cs : List (List JVal))
    (acc : LocationCoordDict) (q : String) :
    hasKey (cs.foldl (fun a x => addCoord a p x) (ensurePath acc p)) q ↔
      q = p ∨ hasKey acc q := by
  rw [hasKey_foldl_addCoord, hasKey_ensurePath]
  constructor
  · rintro ((h | h) | ⟨hq, _⟩)
    · exact Or.inl h
    · exact Or.inr h
    · exact Or.inl hq
  · rintro (h | h)
    · exact Or.inl (Or.inl h)
    · exact Or.inl (Or.inr h)

theorem fileHasKey_cons (p : String) (cs : List (List JVal))
    (rest : LocationCoordDict) (q : String) :
    fileHasKey ((p, cs) :: rest) q ↔ q = p ∨ fileHasKey rest q := by
  constructor
  · rintro ⟨l, hl⟩
    rcases List.mem_cons.mp hl with h | h
    · exact Or.inl (Prod.ext_iff.mp h).1
    · exact Or.inr ⟨l, h⟩
  · rintro (rfl | ⟨l, hl⟩)
    · exact ⟨cs, List.mem_cons_self _ _⟩
    · exact ⟨l, List.mem_cons_of_mem _ hl⟩

theorem hasKey_mergeFile (f : LocationCoordDict) :
    ∀ all q, hasKey (mergeFile all f) q ↔ hasKey all q ∨ fileHasKey f q := by
  induction f with
  | nil =>
    intro all q
    simp [mergeFile, fileHasKey]
  | cons pc rest ih =>
    intro all q
    obtain ⟨p, cs⟩ := pc
    simp only [mergeFile] at ih ⊢
    rw [List.foldl_cons, ih, hasKey_entryStep, fileHasKey_cons]
    tauto

theorem hasKey_mergeFiles (files : List LocationCoordDict) :
    ∀ acc q, hasKey (files.foldl mergeFile acc) q ↔
      hasKey acc q ∨ ∃ f ∈ files, fileHasKey f q := by
  induction files with
  | nil =>
    intro acc q
    simp
  | cons f rest ih =>
    intro acc q
    simp only [List.foldl_cons]
    rw [ih, hasKey_mergeFile]
    simp only [List.mem_cons]
    constructor
    · rintro ((h | h) | ⟨g, hg, hk⟩)
      · exact Or.inl h
      · exact Or.inr ⟨f, Or.inl rfl, h⟩
      · exact Or.inr ⟨g, Or.inr hg, hk⟩
    · rintro (h | ⟨g, (rfl | hg), hk⟩)
      · exact Or.inl (Or.inl h)
      · exact Or.inl (Or.inr hk)
      · exact Or.inr ⟨g, hg, hk⟩

theorem hasCoordAt_of_coordEq (d : LocationCoordDict) (p : String) (x c : List JVal)
    (h : hasCoordAt d p x) (hxc : coordEq x c = true) : hasCoordAt d p c := by
  obtain ⟨l, hl, y, hy, hyx⟩ := h
  exact ⟨l, hl, y, hy, coordEq_trans y x c hyx hxc⟩

theorem hasCoordAt_ensurePath_inv (d : LocationCoordDict) (p q : String) (c : List JVal)
    (h : hasCoordAt (ensurePath d p) q c) : hasCoordAt d q c := by
  obtain ⟨l, hl, y, hy, hyc⟩ := h
  rw [lcdFind_ensurePath] at hl
  by_cases hq : q = p
  · rw [if_pos hq] at hl
    cases hf : lcdFind d p with
    | some cur =>
      rw [hf] at hl
      have hlc : cur = l := by simpa using hl
      subst hq
      exact ⟨cur, hf, y, hlc.symm ▸ hy, hyc⟩
    | none =>
      rw [hf] at hl
      have hlc : l = [] := by simpa using hl.symm
      rw [hlc] at hy
      simp at hy
  · rw [if_neg hq] at hl
    exact ⟨l, hl, y, hy, hyc⟩

theorem hasCoordAt_addCoord_inv (d : LocationCoordDict) (p : String) (x : List JVal)
    (q : String) (c : List JVal) (h : hasCoordAt (addCoord d p x) q c) :
    hasCoordAt d q c ∨ (q = p ∧ coordEq x c = true) := by
  obtain ⟨l, hl, y, hy, hyc⟩ := h
  by_cases hq : q = p
  · subst hq
    rw [lcdFind_addCoord_self] at hl
    cases hf : lcdFind d q with
    | some cur =>
      rw [hf] at hl
      simp only [Option.getD_some] at hl
      cases hdup : cur.any (fun z => coordEq z x) with
      | true =>
        rw [hdup] at hl
        simp only [if_true] at hl
        have hlc : cur = l := by simpa using hl
        exact Or.inl ⟨cur, hf, y, hlc ▸ hy, hyc⟩
      | false =>
        rw [hdup] at hl
        simp only [Bool.false_eq_true, if_false] at hl
        have hlc : cur ++ [x] = l := by simpa using hl
        rw [← hlc] at hy
        rcases List.mem_append.mp hy with h1 | h1
        · exact Or.inl ⟨cur, hf, y, h1, hyc⟩
        · have hyx : y = x := List.mem_singleton.mp h1
          exact Or.inr ⟨rfl, hyx ▸ hyc⟩
    | none =>
      rw [hf] at hl
      have hlc : [x] = l := by simpa using hl
      rw [← hlc] at hy
      have hyx : y = x := List.mem_singleton.mp hy
      exact Or.inr ⟨rfl, hyx ▸ hyc⟩
  · rw [lcdFind_addCoord_ne d p x q hq] at hl
    exact Or.inl ⟨l, hl, y, hy, hyc⟩

theorem hasCoordAt_foldl_addCoord_mono (p : String) (cs : List (List JVal)) :
    ∀ s q c, hasCoordAt s q c →
    hasCoordAt (cs.foldl (fun a x => addCoord a p x) s) q c := by
  induction cs with
  | nil =>
    intro s q c h
    simpa using h
  | cons y cr ih =>
    intro s q c h
    simp only [List.foldl_cons]
    exact ih _ q c (hasCoordAt_addCoord_mono s p y q c h)

theorem hasCoordAt_foldl_addCoord_inv (p : String) (cs : List (List JVal)) :
    ∀ s q c, hasCoordAt (cs.foldl (fun a x => addCoord a p x) s) q c →
    hasCoordAt s q c ∨ (q = p ∧ ∃ x ∈ cs, coordEq x c = true) := by
  induction cs with
  | nil =>
    intro s q c h
    exact Or.inl (by simpa using h)
  | cons y cr ih =>
    intro s q c h
    simp only [List.foldl_cons] at h
    rcases ih _ q c h with h1 | ⟨hq, x, hx, hxc⟩
    · rcases hasCoordAt_addCoord_inv s p y q c h1 with h2 | ⟨hq, hyc⟩
      · exact Or.inl h2
      · exact Or.inr ⟨hq, y, List.mem_cons_self _ _, hyc⟩
    · exact Or.inr ⟨hq, x, List.mem_cons_of_mem _ hx, hxc⟩

theorem foldl_addCoord_reaches (p : String) (cs : List (List JVal)) (c : List JVal) :
    ∀ s, (∃ x ∈ cs, validCoordList x = true ∧ coordEq x c = true) →
    hasCoordAt (cs.foldl (fun a y => addCoord a p y) s) p c := by
  induction cs with
  | nil =>
    intro s h
    rcases h with ⟨x, hx, _⟩
    simp at hx
  | cons y cr ih =>
    intro s h
    rcases h with ⟨x, hx, hvx, hxc⟩
    simp only [List.foldl_cons]
    rcases List.mem_cons.mp hx with heq | hx2
    · refine hasCoordAt_foldl_addCoord_mono p cr _ p c ?_
      refine hasCoordAt_of_coordEq _ p x c ?_ hxc
      rw [heq]
      exact heq ▸ hasCoordAt_addCoord_self s p y (allIsPyInt_of_validCoordList y (heq ▸ hvx))
    · exact ih _ ⟨x, hx2, hvx, hxc⟩

theorem fileHasCoord_cons (p : String) (cs : List (List JVal))
    (rest : LocationCoordDict) (q : String) (c : List JVal) :
    fileHasCoord ((p, cs) :: rest) q c ↔
      (q = p ∧ ∃ x ∈ cs, coordEq x c = true) ∨ fileHasCoord rest q c := by
  constructor
  · rintro ⟨l, hl, hx⟩
    rcases List.mem_cons.mp hl with h | h
    · have h1 : q = p := (Prod.ext_iff.mp h).1
      have h2 : l = cs := (Prod.ext_iff.mp h).2
      exact Or.inl ⟨h1, h2 ▸ hx⟩
    · exact Or.inr ⟨l, h, hx⟩
  · rintro (⟨rfl, hx⟩ | ⟨l, hl, hx⟩)
    · exact ⟨cs, List.mem_cons_self _ _, hx⟩
    · exact ⟨l, List.mem_cons_of_mem _ hl, hx⟩

theorem hasCoordAt_mergeFile_mono (f : LocationCoordDict) :
    ∀ all q c, hasCoordAt all q c → hasCoordAt (mergeFile all f) q c := by
  induction f with
  | nil =>
    intro all q c h
    simpa [mergeFile] using h
  | cons pc rest ih =>
    intro all q c h
    obtain ⟨p, cs⟩ := pc
    simp only [mergeFile] at ih ⊢
    rw [List.foldl_cons]
    exact ih _ q c (hasCoordAt_foldl_addCoord_mono p cs _ q c
      (hasCoordAt_ensurePath_mono all p q c h))

theorem hasCoordAt_mergeFile_inv (f : LocationCoordDict) :
    ∀ all q c, hasCoordAt (mergeFile all f) q c →
    hasCoordAt all q c ∨ fileHasCoord f q c := by
  induction f with
  | nil =>
    intro all q c h
    exact Or.inl (by simpa [mergeFile] using h)
  | cons pc rest ih =>
    intro all q c h
    obtain ⟨p, cs⟩ := pc
    simp only [mergeFile] at ih h
    rw [List.foldl_cons] at h
    rcases ih _ q c h with h1 | h1
    · rcases hasCoordAt_foldl_addCoord_inv p cs _ q c h1 with h2 | ⟨hq, hx⟩
      · exact Or.inl (hasCoordAt_ensurePath_inv all p q c h2)
      · exact Or.inr ((fileHasCoord_cons p cs rest q c).mpr (Or.inl ⟨hq, hx⟩))
    · exact Or.inr ((fileHasCoord_cons p cs rest q c).mpr (Or.inr h1))

theorem hasCoordAt_mergeFile_reach (f : LocationCoordDict) (hwf : wellFormedLCD f) :
    ∀ all q c, fileHasCoord f q c → hasCoordAt (mergeFile all f) q c := by
  induction f with
  | nil =>
    intro all q c h
    rcases h with ⟨l, hl, _⟩
    simp at hl
  | cons pc rest ih =>
    intro all q c h
    obtain ⟨p, cs⟩ := pc
    have hwfr : wellFormedLCD rest := by
      intro a b hm x hx
      exact hwf a b (List.mem_cons_of_mem _ hm) x hx
    simp only [mergeFile] at ih ⊢
    rw [List.foldl_cons]
    rcases (fileHasCoord_cons p cs rest q c).mp h with ⟨rfl, x, hx, hxc⟩ | h1
    · refine hasCoordAt_mergeFile_mono rest _ q c ?_
      · exact foldl_addCoord_reaches q cs c _
          ⟨x, hx, hwf q cs (List.mem_cons_self _ _) x hx, hxc⟩
    · exact ih hwfr _ q c h1

theorem hasCoordAt_mergeFiles_iff (files : List LocationCoordDict)
    (hwf : ∀ f ∈ files, wellFormedLCD f) :
    ∀ acc q c, hasCoordAt (files.foldl mergeFile acc) q c ↔
      hasCoordAt acc q c ∨ ∃ f ∈ files, fileHasCoord f q c := by
  induction files with
  | nil =>
    intro acc q c
    simp
  | cons f rest ih =>
    intro acc q c
    have hwfr : ∀ g ∈ rest, wellFormedLCD g := fun g hg => hwf g (List.mem_cons_of_mem _ hg)
    simp only [List.foldl_cons]
    rw [ih hwfr]
    simp only [List.mem_cons]
    constructor
    · rintro (h | ⟨g, hg, hk⟩)
      · rcases hasCoordAt_mergeFile_inv f acc q c h with h1 | h1
        · exact Or.inl h1
        · exact Or.inr ⟨f, Or.inl rfl, h1⟩
      · exact Or.inr ⟨g, Or.inr hg, hk⟩
    · rintro (h | ⟨g, (rfl | hg), hk⟩)
      · exact Or.inl (hasCoordAt_mergeFile_mono f acc q c h)
      · exact Or.inl (hasCoordAt_mergeFile_reach g (hwf g (List.mem_cons_self _ _)) acc q c hk)
      · exact Or.inr ⟨g, hg, hk⟩

/-! ### Induction over JSON values and key-filter lemmas -/

theorem jval_ind (P : JVal → Prop)
    (hnull : P .null) (hbool : ∀ b, P (.bool b)) (hint : ∀ n, P (.int n))
    (hstr : ∀ s, P (.str s))
    (harr : ∀ xs, (∀ x ∈ xs, P x) → P (.arr xs))
    (hobj : ∀ kvs, (∀ p ∈ kvs, P p.2) → P (.obj kvs)) : ∀ v, P v
  | .null => hnull
  | .bool b => hbool b
  | .int n => hint n
  | .str s => hstr s
  | .arr xs => harr xs (fun x hx =>
      jval_ind P hnull hbool hint hstr harr hobj x)
  | .obj kvs => hobj kvs (fun p hp =>
      jval_ind P hnull hbool hint hstr harr hobj p.2)
termination_by v => sizeOf v
decreasing_by
  · have h1 := List.sizeOf_lt_of_mem hx
    simp only [JVal.arr.sizeOf_spec]
    omega
  · have h1 := List.sizeOf_lt_of_mem hp
    have h2 : sizeOf p.2 < sizeOf p := by
      obtain ⟨a, b⟩ := p
      simp only [Prod.mk.sizeOf_spec]
      omega
    simp only [JVal.obj.sizeOf_spec]
    omega

theorem removeArrList_eq_map (xs : List JVal) :
    removeArrList xs = xs.map remove_keys_with_arrow := by
  induction xs with
  | nil => rfl
  | cons x xs ih => simp [removeArrList, ih]

theorem removeArrObj_eq_filter_map (kvs : List (String × JVal)) :
    removeArrObj kvs = (kvs.filter (fun p => !containsArrow p.1)).map
      (fun p => (p.1, remove_keys_with_arrow p.2)) := by
  induction kvs with
  | nil => rfl
  | cons p rest ih =>
    obtain ⟨k, v⟩ := p
    cases hk : containsArrow k with
    | true => simp [removeArrObj, hk, ih, List.filter_cons]
    | false => simp [removeArrObj, hk, ih, List.filter_cons]

theorem noArrowKeysList_of_members (xs : List JVal)
    (h : ∀ x ∈ xs, noArrowKeys (remove_keys_with_arrow x) = true) :
    noArrowKeysList (removeArrList xs) = true := by
  induction xs with
  | nil => rfl
  | cons x xs ih =>
    simp only [removeArrList, noArrowKeysList, Bool.and_eq_true]
    exact ⟨h x (List.mem_cons_self _ _),
      ih (fun y hy => h y (List.mem_cons_of_mem _ hy))⟩

theorem noArrowKeysObj_of_members (kvs : List (String × JVal))
    (h : ∀ p ∈ kvs, noArrowKeys (remove_keys_with_arrow p.2) = true) :
    noArrowKeysObj (removeArrObj kvs) = true := by
  induction kvs with
  | nil => rfl
  | cons p rest ih =>
    obtain ⟨k, v⟩ := p
    cases hk : containsArrow k with
    | true =>
      simp only [removeArrObj, hk, if_true]
      exact ih (fun q hq => h q (List.mem_cons_of_mem _ hq))
    | false =>
      simp only [removeArrObj, hk, Bool.false_eq_true, if_false, noArrowKeysObj,
        Bool.and_eq_true, Bool.not_eq_true']
      exact ⟨⟨trivial, h (k, v) (List.mem_cons_self _ _)⟩,
        ih (fun q hq => h q (List.mem_cons_of_mem _ hq))⟩

theorem noArrowKeys_remove (v : JVal) :
    noArrowKeys (remove_keys_with_arrow v) = true := by
  induction v using jval_ind with
  | hnull => rfl
  | hbool b => rfl
  | hint n => rfl
  | hstr s => rfl
  | harr xs ih =>
    simp only [remove_keys_with_arrow, noArrowKeys]
    exact noArrowKeysList_of_members xs ih
  | hobj kvs ih =>
    simp only [remove_keys_with_arrow, noArrowKeys]
    exact noArrowKeysObj_of_members kvs ih

theorem removeArrList_of_noArrow (xs : List JVal)
    (hmem : ∀ x ∈ xs, noArrowKeys x = true → remove_keys_with_arrow x = x)
    (h : noArrowKeysList xs = true) : removeArrList xs = xs := by
  induction xs with
  | nil => rfl
  | cons x xs ih =>
    simp only [noArrowKeysList, Bool.and_eq_true] at h
    simp only [removeArrList]
    rw [hmem x (List.mem_cons_self _ _) h.1,
      ih (fun y hy hny => hmem y (List.mem_cons_of_mem _ hy) hny) h.2]

theorem removeArrObj_of_noArrow (kvs : List (String × JVal))
    (hmem : ∀ p ∈ kvs, noArrowKeys p.2 = true → remove_keys_with_arrow p.2 = p.2)
    (h : noArrowKeysObj kvs = true) : removeArrObj kvs = kvs := by
  induction kvs with
  | nil => rfl
  | cons p rest ih =>
    obtain ⟨k, v⟩ := p
    simp only [noArrowKeysObj, Bool.and_eq_true, Bool.not_eq_true'] at h
    simp only [removeArrObj, h.1.1, Bool.false_eq_true, if_false]
    rw [hmem (k, v) (List.mem_cons_self _ _) h.1.2,
      ih (fun q hq hnq => hmem q (List.mem_cons_of_mem _ hq) hnq) h.2]

theorem remove_of_noArrow (v : JVal) (h : noArrowKeys v = true) :
    remove_keys_with_arrow v = v := by
  induction v using jval_ind with
  | hnull => rfl
  | hbool b => rfl
  | hint n => rfl
  | hstr s => rfl
  | harr xs ih =>
    simp only [noArrowKeys] at h
    simp only [remove_keys_with_arrow]
    rw [removeArrList_of_noArrow xs ih h]
  | hobj kvs ih =>
    simp only [noArrowKeys] at h
    simp only [remove_keys_with_arrow]
    rw [removeArrObj_of_noArrow kvs ih h]

/-! ### Warning messages -/

theorem extractTiles_invalidCoord_step (i : Nat) (ts : List JVal)
    (lc : LocationCoordDict) (kvs : List (String × JVal))
    (hvc : validCoord (objGet kvs "coord" (.arr [])) = false) :
    extractTiles i (JVal.obj kvs :: ts) lc =
      ((extractTiles (i + 1) ts lc).1,
        Msg.invalidCoord i (objGet kvs "coord" (.arr [])) ::
          (extractTiles (i + 1) ts lc).2) := by
  simp [extractTiles, hvc]

theorem extractTiles_warning_count (ts : List JVal) :
    ∀ (i : Nat) (lc : LocationCoordDict), (∀ t ∈ ts, tileIsObj t = true) →
    (extractTiles i ts lc).2.countP (fun m => m.isInvalidCoord) =
      ts.countP (fun t => !validCoord (tileCoordVal t)) := by
  induction ts with
  | nil =>
    intro i lc _
    simp [extractTiles]
  | cons t ts ih =>
    intro i lc hobj
    have hto := hobj t (List.mem_cons_self _ _)
    have htl : ∀ u ∈ ts, tileIsObj u = true :=
      fun u hu => hobj u (List.mem_cons_of_mem _ hu)
    cases t with
    | obj kvs =>
      by_cases hvc : validCoord (objGet kvs "coord" (.arr [])) = true
      · have hrhs : List.countP (fun t => !validCoord (tileCoordVal t)) (JVal.obj kvs :: ts)
            = List.countP (fun t => !validCoord (tileCoordVal t)) ts := by
          rw [List.countP_cons]
          simp [tileCoordVal, hvc]
        rw [hrhs]
        simp only [extractTiles, if_pos hvc]
        by_cases hva : validAddr (objGet kvs "address" (.arr [])) = true
        · rw [if_pos hva]
          exact ih (i + 1) _ htl
        · rw [if_neg hva]
          exact ih (i + 1) lc htl
      · have hvcf : validCoord (objGet kvs "coord" (.arr [])) = false :=
          Bool.not_eq_true _ ▸ eq_false_of_ne_true hvc
        have hrhs : List.countP (fun t => !validCoord (tileCoordVal t)) (JVal.obj kvs :: ts)
            = List.countP (fun t => !validCoord (tileCoordVal t)) ts + 1 := by
          rw [List.countP_cons]
          simp [tileCoordVal, hvcf]
        rw [hrhs, extractTiles_invalidCoord_step i ts lc kvs hvcf]
        rw [List.countP_cons]
        have hmsg : Msg.isInvalidCoord
            (Msg.invalidCoord i (objGet kvs "coord" (.arr []))) = true := rfl
        simp [hmsg, ih (i + 1) lc htl]
    | null => simp [tileIsObj] at hto
    | bool b => simp [tileIsObj] at hto
    | int n => simp [tileIsObj] at hto
    | str s => simp [tileIsObj] at hto
    | arr xs => simp [tileIsObj] at hto

theorem extract_snd_count (doc : JVal) :
    (extract_location_coords_from_json doc).2.countP (fun m => m.isInvalidCoord) =
      (extractTiles 1 (docTiles doc) []).2.countP (fun m => m.isInvalidCoord) := by
  cases doc with
  | obj kvs =>
    simp only [extract_location_coords_from_json, docTiles]
    cases hT : objGet kvs "tiles" (.arr []) with
    | arr ts => cases ts with
      | nil => simp [extractTiles, Msg.isInvalidCoord]
      | cons t tl => simp
    | null => simp [pyTruthy, extractTiles, Msg.isInvalidCoord]
    | bool b => cases b <;> simp [pyTruthy, extractTiles, Msg.isInvalidCoord]
    | int n =>
      by_cases hn : (n != 0) = true
      · simp [pyTruthy, hn, extractTiles, Msg.isInvalidCoord]
      · simp [pyTruthy, hn, extractTiles, Msg.isInvalidCoord]
    | str s =>
      by_cases hs : s.isEmpty = true
      · simp [pyTruthy, hs, extractTiles, Msg.isInvalidCoord]
      · simp [pyTruthy, hs, extractTiles, Msg.isInvalidCoord]
    | obj kvs2 =>
      by_cases hk : kvs2.isEmpty = true
      · simp [pyTruthy, hk, extractTiles, Msg.isInvalidCoord]
      · simp [pyTruthy, hk, extractTiles, Msg.isInvalidCoord]
  | null => simp [extract_location_coords_from_json, docTiles, extractTiles, Msg.isInvalidCoord]
  | bool b => simp [extract_location_coords_from_json, docTiles, extractTiles, Msg.isInvalidCoord]
  | int n => simp [extract_location_coords_from_json, docTiles, extractTiles, Msg.isInvalidCoord]
  | str s => simp [extract_location_coords_from_json, docTiles, extractTiles, Msg.isInvalidCoord]
  | arr xs => simp [extract_location_coords_from_json, docTiles, extractTiles, Msg.isInvalidCoord]

/-! ### The output ordering -/

theorem charListLe_total (xs : List Char) :
    ∀ ys, charListLe xs ys = true ∨ charListLe ys xs = true := by
  induction xs with
  | nil =>
    intro ys
    exact Or.inl rfl
  | cons a as ih =>
    intro ys
    cases ys with
    | nil => exact Or.inr rfl
    | cons b bs =>
      by_cases hab : a = b
      · subst hab
        simp only [charListLe, if_pos rfl]
        exact ih bs
      · rcases lt_or_gt_of_ne hab with h | h
        · exact Or.inl (by simp [charListLe, hab, h])
        · have hba : ¬ b = a := fun hh => hab hh.symm
          exact Or.inr (by simp [charListLe, hba, h])

theorem charListLe_trans (xs : List Char) :
    ∀ ys zs, charListLe xs ys = true → charListLe ys zs = true →
    charListLe xs zs = true := by
  induction xs with
  | nil => intro ys zs _ _; rfl
  | cons a as ih =>
    intro ys zs h1 h2
    cases ys with
    | nil => simp [charListLe] at h1
    | cons b bs =>
      cases zs with
      | nil => simp [charListLe] at h2
      | cons c cs =>
        by_cases hab : a = b
        · subst hab
          simp only [charListLe, if_pos rfl] at h1
          by_cases hbc : a = c
          · subst hbc
            simp only [charListLe, if_pos rfl] at h2 ⊢
            exact ih bs cs h1 h2
          · simp only [charListLe, if_neg hbc] at h2 ⊢
            exact h2
        · simp only [charListLe, if_neg hab, decide_eq_true_eq] at h1
          by_cases hbc : b = c
          · subst hbc
            have hac : ¬ a = b := hab
            simp only [charListLe, if_neg hac, decide_eq_true_eq]
            exact h1
          · simp only [charListLe, if_neg hbc, decide_eq_true_eq] at h2
            have hlt : a < c := lt_trans h1 h2
            simp only [charListLe, if_neg (ne_of_lt hlt), decide_eq_true_eq]
            exact hlt

theorem pathKeyLe_iff (a b : String) :
    pathKeyLe a b = true ↔
      levelCount a < levelCount b ∨
        (levelCount a = levelCount b ∧ strLe a b = true) := by
  simp [pathKeyLe, Bool.or_eq_true, decide_eq_true_eq, Bool.and_eq_true, beq_iff_eq]

theorem pathKeyLe_trans (a b c : String) (h1 : pathKeyLe a b = true)
    (h2 : pathKeyLe b c = true) : pathKeyLe a c = true := by
  rw [pathKeyLe_iff] at h1 h2 ⊢
  rcases h1 with h1 | ⟨he1, hs1⟩
  · rcases h2 with h2 | ⟨he2, _⟩
    · exact Or.inl (Nat.lt_trans h1 h2)
    · exact Or.inl (he2 ▸ h1)
  · rcases h2 with h2 | ⟨he2, hs2⟩
    · exact Or.inl (he1 ▸ h2)
    · exact Or.inr ⟨he1.trans he2, charListLe_trans _ _ _ hs1 hs2⟩

theorem pathKeyLe_total (a b : String) :
    (pathKeyLe a b || pathKeyLe b a) = true := by
  rw [Bool.or_eq_true, pathKeyLe_iff, pathKeyLe_iff]
  rcases Nat.lt_trichotomy (levelCount a) (levelCount b) with h | h | h
  · exact Or.inl (Or.inl h)
  · rcases charListLe_total a.data b.data with hs | hs
    · exact Or.inl (Or.inr ⟨h, hs⟩)
    · exact Or.inr (Or.inr ⟨h.symm, hs⟩)
  · exact Or.inr (Or.inl h)

theorem invalid_not_stored (d : LocationCoordDict) (hwf : wellFormedLCD d)
    (cbad : List JVal) (hbad : validCoordList cbad = false) (p : String) :
    ¬ ∃ l, (p, l) ∈ d ∧ cbad ∈ l := by
  rintro ⟨l, hm, hc⟩
  have hv := hwf p l hm cbad hc
  exact Bool.noConfusion (hv.symm.trans hbad)

theorem validCoordList_coordElems_false (v : JVal) (h : validCoord v = false) :
    validCoordList (coordElems v) = false := by
  cases v with
  | arr xs =>
    match xs with
    | [] => rfl
    | [a] => rfl
    | [a, b] =>
      simp only [validCoord] at h
      simp only [coordElems, validCoordList, List.all_cons, List.all_nil]
      simp only [Bool.and_eq_true, Bool.and_eq_false_iff] at h ⊢
      rcases h with h | h <;> simp [h]
    | a :: b :: c :: rest =>
      simp [coordElems, validCoordList]
  | null => rfl
  | bool b => rfl
  | int n => rfl
  | str s => rfl
  | obj kvs => rfl

/-! ### Example documents used by concrete evaluations -/

/-- A document with one tile: `coord [1, 2]`, `address ["A", "B", "C"]`. -/
def exampleDocABC : JVal :=
  .obj [("tiles", .arr [.obj [("coord", .arr [.int 1, .int 2]),
    ("address", .arr [.str "A", .str "B", .str "C"])]])]

/-- A document with one tile: `coord [1, 2]`, `address ["A"]`. -/
def exampleDocA : JVal :=
  .obj [("tiles", .arr [.obj [("coord", .arr [.int 1, .int 2]),
    ("address", .arr [.str "A"])]])]

/-- A document with one tile: `coord [1, 0]` (genuine ints), `address ["A"]`. -/
def exampleDocIntCoord : JVal :=
  .obj [("tiles", .arr [.obj [("coord", .arr [.int 1, .int 0]),
    ("address", .arr [.str "A"])]])]

/-- A document with one tile: `coord [true, false]` (booleans), `address ["A"]`. -/
def exampleDocBoolCoord : JVal :=
  .obj [("tiles", .arr [.obj [("coord", .arr [.bool true, .bool false]),
    ("address", .arr [.str "A"])]])]

/-- A document with one tile whose `address` is the empty list. -/
def exampleDocEmptyAddr : JVal :=
  .obj [("tiles", .arr [.obj [("coord", .arr [.int 1, .int 2]),
    ("address", .arr [])]])]

/-- A document with one tile whose `coord` is `[1, "2"]`. -/
def exampleDocBadCoord : JVal :=
  .obj [("tiles", .arr [.obj [("coord", .arr [.int 1, .str "2"]),
    ("address", .arr [.str "A"])]])]

/-! ### Claim theorems -/

/-- C1: for a tile whose `coord` validates and whose `address` validates,
the tile iteration processes it by running the per-level loop, and that
loop attributes the coordinate to exactly the `"->"`-joins of the stripped
address elements at positions `0..k-1`, for every prefix length `k + 1`
from 1 to the address length: each such path's list ends up containing the
coordinate (up to the code's tuple equality), every other path is left
untouched, and the `["A","B","C"]`/`[1,2]` example yields `[1,2]` under
exactly the paths `"A"`, `"A->B"`, `"A->B->C"`. -/
theorem C1_prefix_attribution (i : Nat) (ts : List JVal) (lc : LocationCoordDict)
    (kvs : List (String × JVal))
    (hvc : validCoord (objGet kvs "coord" (.arr [])) = true)
    (hva : validAddr (objGet kvs "address" (.arr [])) = true) :
    (extractTiles i (JVal.obj kvs :: ts) lc =
      extractTiles (i + 1) ts
        (processLevels (coordElems (objGet kvs "coord" (.arr []))) [] lc
          (addrStrings (objGet kvs "address" (.arr []))))) ∧
    (∀ k, k < (addrStrings (objGet kvs "address" (.arr []))).length →
      hasCoordAt
        (processLevels (coordElems (objGet kvs "coord" (.arr []))) [] lc
          (addrStrings (objGet kvs "address" (.arr []))))
        (joinArrow (((addrStrings (objGet kvs "address" (.arr []))).take (k + 1)).map pyStrip))
        (coordElems (objGet kvs "coord" (.arr [])))) ∧
    (∀ q, (∀ k, k < (addrStrings (objGet kvs "address" (.arr []))).length →
        q ≠ joinArrow (((addrStrings (objGet kvs "address" (.arr []))).take (k + 1)).map pyStrip)) →
      lcdFind
        (processLevels (coordElems (objGet kvs "coord" (.arr []))) [] lc
          (addrStrings (objGet kvs "address" (.arr [])))) q = lcdFind lc q) ∧
    (extract_location_coords_from_json exampleDocABC =
      ([("A", [[JVal.int 1, JVal.int 2]]), ("A->B", [[JVal.int 1, JVal.int 2]]),
        ("A->B->C", [[JVal.int 1, JVal.int 2]])], [])) := by
  refine ⟨?_, ?_, ?_, rfl⟩
  · simp [extractTiles, hvc, hva]
  · intro k hk
    have hall : (coordElems (objGet kvs "coord" (.arr []))).all isPyInt = true :=
      allIsPyInt_of_validCoordList _ (validCoordList_of_validCoord _ hvc)
    have hh := processLevels_attr (coordElems (objGet kvs "coord" (.arr []))) hall
      (addrStrings (objGet kvs "address" (.arr []))) [] lc k hk
    simpa using hh
  · intro q hq
    refine processLevels_untouched (coordElems (objGet kvs "coord" (.arr [])))
      (addrStrings (objGet kvs "address" (.arr []))) [] lc q ?_
    intro k hk
    have hh := hq k hk
    simpa using hh

/-- Witness for C1: the tile `{coord: [1,2], address: ["A","B","C"]}`
satisfies both validations, and the theorem applies to it. -/
theorem C1_prefix_attribution_witness :
    validCoord (objGet [("coord", JVal.arr [JVal.int 1, JVal.int 2]),
      ("address", JVal.arr [JVal.str "A", JVal.str "B", JVal.str "C"])] "coord" (.arr [])) = true ∧
    validAddr (objGet [("coord", JVal.arr [JVal.int 1, JVal.int 2]),
      ("address", JVal.arr [JVal.str "A", JVal.str "B", JVal.str "C"])] "address" (.arr [])) = true ∧
    ((extractTiles 1 [JVal.obj [("coord", JVal.arr [JVal.int 1, JVal.int 2]),
        ("address", JVal.arr [JVal.str "A", JVal.str "B", JVal.str "C"])]] [] =
      extractTiles 2 []
        (processLevels (coordElems (objGet [("coord", JVal.arr [JVal.int 1, JVal.int 2]),
            ("address", JVal.arr [JVal.str "A", JVal.str "B", JVal.str "C"])] "coord" (.arr []))) [] []
          (addrStrings (objGet [("coord", JVal.arr [JVal.int 1, JVal.int 2]),
            ("address", JVal.arr [JVal.str "A", JVal.str "B", JVal.str "C"])] "address" (.arr []))))) ∧
     (∀ k, k < (addrStrings (objGet [("coord", JVal.arr [JVal.int 1, JVal.int 2]),
          ("address", JVal.arr [JVal.str "A", JVal.str "B", JVal.str "C"])] "address" (.arr []))).length →
       hasCoordAt
         (processLevels (coordElems (objGet [("coord", JVal.arr [JVal.int 1, JVal.int 2]),
             ("address", JVal.arr [JVal.str "A", JVal.str "B", JVal.str "C"])] "coord" (.arr []))) [] []
           (addrStrings (objGet [("coord", JVal.arr [JVal.int 1, JVal.int 2]),
             ("address", JVal.arr [JVal.str "A", JVal.str "B", JVal.str "C"])] "address" (.arr []))))
         (joinArrow (((addrStrings (objGet [("coord", JVal.arr [JVal.int 1, JVal.int 2]),
             ("address", JVal.arr [JVal.str "A", JVal.str "B", JVal.str "C"])] "address" (.arr []))).take (k + 1)).map pyStrip))
         (coordElems (objGet [("coord", JVal.arr [JVal.int 1, JVal.int 2]),
             ("address", JVal.arr [JVal.str "A", JVal.str "B", JVal.str "C"])] "coord" (.arr [])))) ∧
     (∀ q, (∀ k, k < (addrStrings (objGet [("coord", JVal.arr [JVal.int 1, JVal.int 2]),
           ("address", JVal.arr [JVal.str "A", JVal.str "B", JVal.str "C"])] "address" (.arr []))).length →
         q ≠ joinArrow (((addrStrings (objGet [("coord", JVal.arr [JVal.int 1, JVal.int 2]),
           ("address", JVal.arr [JVal.str "A", JVal.str "B", JVal.str "C"])] "address" (.arr []))).take (k + 1)).map pyStrip)) →
       lcdFind
         (processLevels (coordElems (objGet [("coord", JVal.arr [JVal.int 1, JVal.int 2]),
             ("address", JVal.arr [JVal.str "A", JVal.str "B", JVal.str "C"])] "coord" (.arr []))) [] []
           (addrStrings (objGet [("coord", JVal.arr [JVal.int 1, JVal.int 2]),
             ("address", JVal.arr [JVal.str "A", JVal.str "B", JVal.str "C"])] "address" (.arr [])))) q = lcdFind [] q) ∧
     (extract_location_coords_from_json exampleDocABC =
       ([("A", [[JVal.int 1, JVal.int 2]]), ("A->B", [[JVal.int 1, JVal.int 2]]),
         ("A->B->C", [[JVal.int 1, JVal.int 2]])], []))) :=
  ⟨rfl, rfl, C1_prefix_attribution 1 [] [] _ rfl rfl⟩

/-- C2: in the merged result produced from any list of input documents,
every path's coordinate list is pairwise structurally distinct, and every
coordinate in it was observed on at least one fully valid tile one of
whose address-prefix paths equals that path. -/
theorem C2_merged_invariant (docs : List JVal) (p : String) (l : List (List JVal))
    (hm : (p, l) ∈ (merge_all_location_coords docs).1) :
    l.Pairwise (fun a b => a ≠ b) ∧ (∀ c ∈ l, observedCoord docs p c) := by
  have hwfall : wellFormedLCD (merge_all_location_coords docs).1 := by
    refine mergeFiles_allCoordsP _ _ [] (allCoordsP_nil _) ?_
    intro f hf
    rcases List.mem_map.mp hf with ⟨doc, _, rfl⟩
    exact extract_wellFormed doc
  have hdis : distinctCoords (merge_all_location_coords docs).1 :=
    mergeFiles_distinct _ [] distinctCoords_nil
  constructor
  · have hpw := hdis p l hm
    refine List.Pairwise.imp_of_mem ?_ hpw
    intro a b ha _ hab heq
    have hva : validCoordList a = true := hwfall p l hm a ha
    have hrefl : coordEq a b = true := by
      rw [← heq]
      exact coordEq_refl a (allIsPyInt_of_validCoordList a hva)
    exact Bool.noConfusion (hrefl.symm.trans hab)
  · intro c hc
    have hobs : allCoordsP (fun q c2 => observedCoord docs q c2)
        (merge_all_location_coords docs).1 := by
      refine mergeFiles_allCoordsP _ _ [] (allCoordsP_nil _) ?_
      intro f hf
      rcases List.mem_map.mp hf with ⟨doc, hdoc, rfl⟩
      intro q l2 hm2 c2 hc2
      exact ⟨doc, hdoc, extract_observed doc q l2 hm2 c2 hc2⟩
    exact hobs p l hm c hc

/-- Witness for C2: two identical input files, each holding the tile
`{coord: [1,2], address: ["A"]}`, merge to a single entry for path `"A"`
containing `[1,2]` exactly once, and the theorem applies to that entry. -/
theorem C2_merged_invariant_witness :
    ("A", [[JVal.int 1, JVal.int 2]]) ∈
      (merge_all_location_coords [exampleDocA, exampleDocA]).1 ∧
    ([[JVal.int 1, JVal.int 2]].Pairwise (fun a b => a ≠ b) ∧
      (∀ c ∈ [[JVal.int 1, JVal.int 2]],
        observedCoord [exampleDocA, exampleDocA] "A" c)) := by
  have hmem : ("A", [[JVal.int 1, JVal.int 2]]) ∈
      (merge_all_location_coords [exampleDocA, exampleDocA]).1 :=
    List.mem_singleton.mpr rfl
  exact ⟨hmem, C2_merged_invariant [exampleDocA, exampleDocA] "A" _ hmem⟩

/-- C3 counterexample: two per-file mappings obtained by extraction, one
storing the coordinate as genuine integers `[1, 0]` and the other as the
Python-equal booleans `[true, false]`.  Merging in the two visit orders
yields different coordinate content for path `"A"` (not merely a
different insertion order), refuting exact order-independence of the
final content. -/
theorem C3_counterexample :
    (extract_location_coords_from_json exampleDocIntCoord).1 =
      [("A", [[JVal.int 1, JVal.int 0]])] ∧
    (extract_location_coords_from_json exampleDocBoolCoord).1 =
      [("A", [[JVal.bool true, JVal.bool false]])] ∧
    mergeFiles [(extract_location_coords_from_json exampleDocIntCoord).1,
        (extract_location_coords_from_json exampleDocBoolCoord).1] =
      [("A", [[JVal.int 1, JVal.int 0]])] ∧
    mergeFiles [(extract_location_coords_from_json exampleDocBoolCoord).1,
        (extract_location_coords_from_json exampleDocIntCoord).1] =
      [("A", [[JVal.bool true, JVal.bool false]])] ∧
    ([("A", [[JVal.int 1, JVal.int 0]])] : LocationCoordDict) ≠
      [("A", [[JVal.bool true, JVal.bool false]])] := by
  refine ⟨rfl, rfl, rfl, rfl, ?_⟩
  intro h
  have h2 := List.head_eq_of_cons_eq h
  simp at h2

/-- C3 (amended): merging any permutation of a collection of per-file
mappings whose stored coordinates are validated pairs yields a merged
result with the same set of location paths and, per path, the same
coordinates up to the code's tuple equality (Python `==`, which
identifies `True`/`False` with `1`/`0`); exact list content additionally
depends on visit order when Python-equal but structurally different
representations (ints versus booleans) occur across files. -/
theorem C3_merge_order_independence (files1 files2 : List LocationCoordDict)
    (hperm : files1.Perm files2) (hwf : ∀ f ∈ files1, wellFormedLCD f) :
    (∀ q, hasKey (mergeFiles files1) q ↔ hasKey (mergeFiles files2) q) ∧
    (∀ p c, hasCoordAt (mergeFiles files1) p c ↔ hasCoordAt (mergeFiles files2) p c) := by
  have hwf2 : ∀ f ∈ files2, wellFormedLCD f := by
    intro f hf
    exact hwf f (hperm.mem_iff.mpr hf)
  have hknil : ∀ q, ¬ hasKey ([] : LocationCoordDict) q := by
    intro q h
    simp [hasKey, lcdFind] at h
  have hcnil : ∀ p c, ¬ hasCoordAt ([] : LocationCoordDict) p c := by
    rintro p c ⟨l, hl, _⟩
    simp [lcdFind] at hl
  constructor
  · intro q
    rw [show mergeFiles files1 = files1.foldl mergeFile [] from rfl,
      show mergeFiles files2 = files2.foldl mergeFile [] from rfl,
      hasKey_mergeFiles files1 [] q, hasKey_mergeFiles files2 [] q]
    constructor
    · rintro (h | ⟨f, hf, hk⟩)
      · exact absurd h (hknil q)
      · exact Or.inr ⟨f, hperm.mem_iff.mp hf, hk⟩
    · rintro (h | ⟨f, hf, hk⟩)
      · exact absurd h (hknil q)
      · exact Or.inr ⟨f, hperm.mem_iff.mpr hf, hk⟩
  · intro p c
    rw [show mergeFiles files1 = files1.foldl mergeFile [] from rfl,
      show mergeFiles files2 = files2.foldl mergeFile [] from rfl,
      hasCoordAt_mergeFiles_iff files1 hwf [] p c,
      hasCoordAt_mergeFiles_iff files2 hwf2 [] p c]
    constructor
    · rintro (h | ⟨f, hf, hk⟩)
      · exact absurd h (hcnil p c)
      · exact Or.inr ⟨f, hperm.mem_iff.mp hf, hk⟩
    · rintro (h | ⟨f, hf, hk⟩)
      · exact absurd h (hcnil p c)
      · exact Or.inr ⟨f, hperm.mem_iff.mpr hf, hk⟩

/-- Witness for C3 (amended): the two-file collection of the
counterexample, visited in swapped orders, has the same path set and the
same coordinates up to tuple equality. -/
theorem C3_merge_order_independence_witness :
    ([(extract_location_coords_from_json exampleDocIntCoord).1,
        (extract_location_coords_from_json exampleDocBoolCoord).1].Perm
      [(extract_location_coords_from_json exampleDocBoolCoord).1,
        (extract_location_coords_from_json exampleDocIntCoord).1]) ∧
    ((∀ q, hasKey (mergeFiles [(extract_location_coords_from_json exampleDocIntCoord).1,
          (extract_location_coords_from_json exampleDocBoolCoord).1]) q ↔
        hasKey (mergeFiles [(extract_location_coords_from_json exampleDocBoolCoord).1,
          (extract_location_coords_from_json exampleDocIntCoord).1]) q) ∧
     (∀ p c, hasCoordAt (mergeFiles [(extract_location_coords_from_json exampleDocIntCoord).1,
          (extract_location_coords_from_json exampleDocBoolCoord).1]) p c ↔
        hasCoordAt (mergeFiles [(extract_location_coords_from_json exampleDocBoolCoord).1,
          (extract_location_coords_from_json exampleDocIntCoord).1]) p c)) := by
  have hperm : [(extract_location_coords_from_json exampleDocIntCoord).1,
      (extract_location_coords_from_json exampleDocBoolCoord).1].Perm
    [(extract_location_coords_from_json exampleDocBoolCoord).1,
      (extract_location_coords_from_json exampleDocIntCoord).1] :=
    List.Perm.swap _ _ []
  refine ⟨hperm, C3_merge_order_independence _ _ hperm ?_⟩
  intro f hf
  rcases List.mem_cons.mp hf with rfl | hf2
  · exact extract_wellFormed exampleDocIntCoord
  · rcases List.mem_cons.mp hf2 with rfl | hf3
    · exact extract_wellFormed exampleDocBoolCoord
    · simp at hf3

/-- C4: the key filter returns scalars unchanged, maps lists element-wise
with no element removed, keeps exactly the object entries whose key does
not contain `"->"` (recursing into the kept values), leaves no matching
key at any nesting depth, and keeps a fully filtered object as an empty
object inside its parent. -/
theorem C4_key_filter_contract :
    (remove_keys_with_arrow .null = .null) ∧
    (∀ b, remove_keys_with_arrow (.bool b) = .bool b) ∧
    (∀ n, remove_keys_with_arrow (.int n) = .int n) ∧
    (∀ s, remove_keys_with_arrow (.str s) = .str s) ∧
    (∀ xs, remove_keys_with_arrow (.arr xs) = .arr (xs.map remove_keys_with_arrow)) ∧
    (∀ xs : List JVal, (xs.map remove_keys_with_arrow).length = xs.length) ∧
    (∀ kvs, remove_keys_with_arrow (.obj kvs) =
      .obj ((kvs.filter (fun p => !containsArrow p.1)).map
        (fun p => (p.1, remove_keys_with_arrow p.2)))) ∧
    (∀ v, noArrowKeys (remove_keys_with_arrow v) = true) ∧
    (remove_keys_with_arrow (.obj [("x", .obj [("a->b", .int 1)])]) =
      .obj [("x", .obj [])]) := by
  refine ⟨rfl, fun b => rfl, fun n => rfl, fun s => rfl, ?_, ?_, ?_,
    noArrowKeys_remove, rfl⟩
  · intro xs
    simp [remove_keys_with_arrow, removeArrList_eq_map]
  · intro xs
    simp
  · intro kvs
    simp [remove_keys_with_arrow, removeArrObj_eq_filter_map]

/-- C5: the key filter is idempotent: filtering twice with the same
delimiter equals filtering once. -/
theorem C5_idempotent (v : JVal) :
    remove_keys_with_arrow (remove_keys_with_arrow v) = remove_keys_with_arrow v :=
  remove_of_noArrow _ (noArrowKeys_remove v)

/-- C6: a dict tile whose `coord` fails validation is skipped with an
invalid-coordinate warning carrying its index and raw value, the
remaining tiles are processed from the unchanged accumulator, and the
tile's coordinate value appears in no path's coordinate list of any
extraction result. -/
theorem C6_invalid_coord_skipped (i : Nat) (ts : List JVal) (lc : LocationCoordDict)
    (kvs : List (String × JVal))
    (hvc : validCoord (objGet kvs "coord" (.arr [])) = false) :
    ((extractTiles i (JVal.obj kvs :: ts) lc).1 = (extractTiles (i + 1) ts lc).1 ∧
     (extractTiles i (JVal.obj kvs :: ts) lc).2 =
       Msg.invalidCoord i (objGet kvs "coord" (.arr [])) ::
         (extractTiles (i + 1) ts lc).2) ∧
    (∀ doc p, ¬ ∃ l, (p, l) ∈ (extract_location_coords_from_json doc).1 ∧
      coordElems (objGet kvs "coord" (.arr [])) ∈ l) := by
  constructor
  · rw [extractTiles_invalidCoord_step i ts lc kvs hvc]
    exact ⟨rfl, rfl⟩
  · intro doc p
    exact invalid_not_stored _ (extract_wellFormed doc) _
      (validCoordList_coordElems_false _ hvc) p

/-- Witness for C6: the tile `{coord: [1, "2"], address: ["A"]}` fails
coordinate validation and the theorem applies to it. -/
theorem C6_invalid_coord_skipped_witness :
    validCoord (objGet [("coord", JVal.arr [JVal.int 1, JVal.str "2"]),
      ("address", JVal.arr [JVal.str "A"])] "coord" (.arr [])) = false ∧
    (((extractTiles 1 [JVal.obj [("coord", JVal.arr [JVal.int 1, JVal.str "2"]),
        ("address", JVal.arr [JVal.str "A"])]] []).1 = (extractTiles 2 [] []).1 ∧
      (extractTiles 1 [JVal.obj [("coord", JVal.arr [JVal.int 1, JVal.str "2"]),
        ("address", JVal.arr [JVal.str "A"])]] []).2 =
        Msg.invalidCoord 1 (objGet [("coord", JVal.arr [JVal.int 1, JVal.str "2"]),
          ("address", JVal.arr [JVal.str "A"])] "coord" (.arr [])) ::
          (extractTiles 2 [] []).2) ∧
     (∀ doc p, ¬ ∃ l, (p, l) ∈ (extract_location_coords_from_json doc).1 ∧
       coordElems (objGet [("coord", JVal.arr [JVal.int 1, JVal.str "2"]),
         ("address", JVal.arr [JVal.str "A"])] "coord" (.arr [])) ∈ l)) :=
  ⟨rfl, C6_invalid_coord_skipped 1 [] [] _ rfl⟩

/-- C7 counterexample: the document whose only tile has a valid `coord`
but an empty `address` list.  The tile is skipped (the result has no
paths), yet the extraction reports no message at all — a silently
swallowed skip, contradicting the claim that every skipped tile is
accompanied by a reported message. -/
theorem C7_counterexample :
    docTiles exampleDocEmptyAddr =
      [JVal.obj [("coord", JVal.arr [JVal.int 1, JVal.int 2]),
        ("address", JVal.arr [])]] ∧
    validCoord (tileCoordVal (JVal.obj [("coord", JVal.arr [JVal.int 1, JVal.int 2]),
      ("address", JVal.arr [])])) = true ∧
    validAddr (tileAddrVal (JVal.obj [("coord", JVal.arr [JVal.int 1, JVal.int 2]),
      ("address", JVal.arr [])])) = false ∧
    extract_location_coords_from_json exampleDocEmptyAddr = ([], []) :=
  ⟨rfl, rfl, rfl, rfl⟩

/-- C7 (amended): for a document whose tiles are all dicts, the number of
reported invalid-coordinate warnings equals exactly the number of tiles
whose `coord` fails validation — every coordinate-invalid tile produces a
warning; tiles skipped for an invalid `address` are skipped silently by
design. -/
theorem C7_warning_accounting (doc : JVal)
    (hobj : ∀ t ∈ docTiles doc, tileIsObj t = true) :
    (extract_location_coords_from_json doc).2.countP (fun m => m.isInvalidCoord) =
      (docTiles doc).countP (fun t => !validCoord (tileCoordVal t)) := by
  rw [extract_snd_count]
  exact extractTiles_warning_count (docTiles doc) 1 [] hobj

/-- Witness for C7 (amended): the document whose only tile has
`coord [1, "2"]` has one such tile and produces exactly one warning. -/
theorem C7_warning_accounting_witness :
    (∀ t ∈ docTiles exampleDocBadCoord, tileIsObj t = true) ∧
    (extract_location_coords_from_json exampleDocBadCoord).2.countP
        (fun m => m.isInvalidCoord) =
      (docTiles exampleDocBadCoord).countP (fun t => !validCoord (tileCoordVal t)) := by
  have hobj : ∀ t ∈ docTiles exampleDocBadCoord, tileIsObj t = true := by
    intro t ht
    rw [List.mem_singleton.mp ht]
    rfl
  exact ⟨hobj, C7_warning_accounting exampleDocBadCoord hobj⟩

/-- C8: the serialized mapping is a permutation of the merged dict listed
with its paths sorted by level count ascending and lexicographically
within equal level counts, and the printed key order is sorted the same
way. -/
theorem C8_output_sorted (d : LocationCoordDict) :
    (save_location_coords_to_json d).Perm d ∧
    List.Pairwise (fun x y => pathKeyLe x.1 y.1 = true) (save_location_coords_to_json d) ∧
    (print_location_coords d).Perm (d.map Prod.fst) ∧
    List.Pairwise (fun a b => pathKeyLe a b = true) (print_location_coords d) := by
  refine ⟨List.mergeSort_perm d _, ?_, List.mergeSort_perm _ _, ?_⟩
  · exact List.sorted_mergeSort (fun a b c => pathKeyLe_trans a.1 b.1 c.1)
      (fun a b => pathKeyLe_total a.1 b.1) d
  · exact List.sorted_mergeSort (fun a b c => pathKeyLe_trans a b c)
      pathKeyLe_total (d.map Prod.fst)

/-- C9: a tile whose `coord` is a pair of JSON booleans passes the
coordinate validation (Python's `isinstance(True, int)` is true), so its
boolean coordinate is attributed to its address path rather than the
tile being skipped. -/
theorem C9_bool_coord_accepted :
    validCoord (JVal.arr [JVal.bool true, JVal.bool false]) = true ∧
    extract_location_coords_from_json exampleDocBoolCoord =
      ([("A", [[JVal.bool true, JVal.bool false]])], []) :=
  ⟨rfl, rfl⟩

/-- C10: in the per-file extraction result and in the merged result,
every present location path maps to a non-empty coordinate list. -/
theorem C10_no_empty_lists (doc : JVal) (docs : List JVal) :
    (∀ p l, (p, l) ∈ (extract_location_coords_from_json doc).1 → l ≠ []) ∧
    (∀ p l, (p, l) ∈ (merge_all_location_coords docs).1 → l ≠ []) := by
  constructor
  · exact extract_noEmpty doc
  · refine mergeFiles_noEmpty _ [] noEmptyLists_nil ?_
    intro f hf
    rcases List.mem_map.mp hf with ⟨d2, _, rfl⟩
    exact extract_noEmpty d2
